import Mathlib

/-!
Shallow embedding of the generic-crc repository (`bit_array_utils.py`,
`BinLFSR.py`, `BinPolyDiv.py`, `CRC.py`) and proofs about it.

Bit arrays are modelled as `List Nat` (one entry per numpy integer cell) and
Python integers as `Nat`; on the non-negative values that occur here Python's
floor division `//` and `%` coincide with `Nat` division and modulo.
Mutation of a numpy array is modelled by `List.set`, and the aliasing between
the local names `state` and `remainder` in `BinPolyDiv._div` is reproduced by
threading both lists through the loop explicitly.
-/

/-- Fuel-based version of the `while num // (2 ** power): power += 1` loop of
`to_bit_array`: counts the binary digits of `n` (0 for `n = 0`).  The first
argument is fuel; `n` itself is always enough fuel. -/
def bitLenAux : Nat → Nat → Nat
  | 0, _ => 0
  | fuel + 1, n => if n = 0 then 0 else bitLenAux fuel (n / 2) + 1

/-- Model of `bit_array_utils.to_bit_array`.  A `length` of 0 models Python's
`None` (and an explicit 0, both falsy): the minimal width is used, with at
least one digit. -/
def to_bit_array (num : Nat) (length : Nat) : List Nat :=
  let power := if length ≠ 0 then length
    else if bitLenAux num num = 0 then 1 else bitLenAux num num
  (List.range power).map fun i => num / 2 ^ (power - i - 1) % 2

/-- Model of `bit_array_utils.from_bit_array`. -/
def from_bit_array (arr : List Nat) : Nat :=
  (List.range arr.length).foldl
    (fun integer power => integer + arr.getD (arr.length - power - 1) 0 % 2 * 2 ^ power) 0

/-- Model of `BinLFSR.step` for connection polynomial `g` of degree `n`,
acting on the current numeric register contents `state`.  Returns the pair
`(new_state[0], from_bit_array new_state)`: the 1-bit output and the numeric
state stored back into `self.state`. -/
def BinLFSR.step (g n state : Nat) : Nat × Nat :=
  let g_vec := to_bit_array g (n + 1)
  let state_vec := to_bit_array state n
  let shifted := to_bit_array (state * 2) n
  let injected := shifted.set (n - 1) (state_vec.getD 0 0)
  let new_state := (List.range (n - 1)).foldl
    (fun arr i =>
      if g_vec.getD (i + 1) 0 ≠ 0 then
        arr.set i (state_vec.getD (i + 1) 0 ^^^ state_vec.getD 0 0)
      else arr) injected
  (new_state.getD 0 0, from_bit_array new_state)

/-- Numeric register state stored back by one call to `BinLFSR.step`
(the mutation of `self.state`); iterating it models repeated calls. -/
def BinLFSR.stepState (g n state : Nat) : Nat := (BinLFSR.step g n state).2

/-- Model of the loop of `BinPolyDiv._div`.  Arguments after the dividend:
the list currently named `state`, the list currently named `remainder`
(an alias of the previous iteration's injected array), the quotient
accumulator, and the owned LFSR's numeric state.  Returns
`(quotient, remainder, final lfsr state)`. -/
def BinPolyDiv.divLoop (g p : Nat) :
    List Nat → List Nat → List Nat → List Nat → Nat → List Nat × List Nat × Nat
  | [], _state, rem, quot, lfsr => (quot, rem, lfsr)
  | dj :: rest, state, rem, quot, _lfsr =>
    let f : Nat := if rem.getD 0 0 % 2 ^^^ dj ≠ 0 then 1 else 0
    let injected := state.set (state.length - 1) f
    let res := BinLFSR.step g p (from_bit_array injected)
    let quot' := if rest = [] then quot else quot ++ [injected.getD 0 0]
    BinPolyDiv.divLoop g p rest (to_bit_array res.2 p) injected quot' res.2

/-- Model of `BinPolyDiv._div` (quotient and remainder bit arrays). -/
def BinPolyDiv._div (g p : Nat) (d : List Nat) : List Nat × List Nat :=
  let r := BinPolyDiv.divLoop g p d (to_bit_array 0 p) (to_bit_array 0 p) [] 0
  (r.1, r.2.1)

/-- Numeric state left in the owned LFSR after `BinPolyDiv._div` returns
(the register contents after the final clocking). -/
def BinPolyDiv.lfsrAfter (g p : Nat) (d : List Nat) : Nat :=
  (BinPolyDiv.divLoop g p d (to_bit_array 0 p) (to_bit_array 0 p) [] 0).2.2

/-- Model of `BinPolyDiv.div`. -/
def BinPolyDiv.div (g p : Nat) (d : List Nat) : Nat :=
  from_bit_array (BinPolyDiv._div g p d).1

/-- Model of `BinPolyDiv.remainder`. -/
def BinPolyDiv.remainder (g p : Nat) (d : List Nat) : Nat :=
  from_bit_array (BinPolyDiv._div g p d).2

/-- The module-level constant `ITEM_SIZE` of `CRC.py`. -/
def ITEM_SIZE : Nat := 8

/-- Model of `len(to_bit_array(g))` computed in `CRC.__init__`. -/
def CRC.crc_len (g : Nat) : Nat := (to_bit_array g 0).length

/-- Model of `CRC.encode_bytes` for generator `g` and payload length `n`.
Note the source's inner loop ranges over `ITEM_SIZE`, not over `size`. -/
def CRC.encode_bytes (g n : Nat) (m : List Nat) (size : Nat) : List Nat :=
  let c0 := ((List.range n).map fun i =>
    (List.range ITEM_SIZE).map fun j => m.getD i 0 / 2 ^ (ITEM_SIZE - 1 - j) % 2).flatten
  let c1 := c0 ++ List.replicate (CRC.crc_len g - 1) 0
  let r := to_bit_array (BinPolyDiv.remainder g (CRC.crc_len g - 1) c1) (CRC.crc_len g - 1)
  (List.range (c1.length - n * ITEM_SIZE)).foldl
    (fun c i => c.set (n * ITEM_SIZE + i) (r.getD i 0)) c1

/-- Model of `CRC.decode`: the decoded payload items and the remainder. -/
def CRC.decode (g n : Nat) (received : List Nat) : List Nat × Nat :=
  let rem := BinPolyDiv.remainder g (CRC.crc_len g - 1) received
  ((List.range n).map fun i =>
    from_bit_array ((received.drop (i * ITEM_SIZE)).take ITEM_SIZE), rem)

/-!
Specification-level definitions.  GF(2) polynomials are encoded as naturals:
bit `i` of the encoding is the coefficient of `x^i`.  Addition of polynomials
is then `^^^` and multiplication is the carry-less product `clmul`.
-/

/-- Bit sequence produced by the payload-flattening loop of
`CRC.encode_bytes`: each of the `n` payload items expanded into `ITEM_SIZE`
bits, MSB first, concatenated in item order. -/
def payloadBits (n : Nat) (m : List Nat) : List Nat :=
  ((List.range n).map fun i =>
    (List.range ITEM_SIZE).map fun j => m.getD i 0 / 2 ^ (ITEM_SIZE - 1 - j) % 2).flatten

/-- MSB-first value of a bit list, starting from accumulator `a`; each entry
contributes its value modulo 2. -/
def ofBitsFrom (a : Nat) (l : List Nat) : Nat :=
  l.foldl (fun x b => 2 * x + b % 2) a

/-- MSB-first value of a bit list (entries taken modulo 2). -/
def ofBits (l : List Nat) : Nat := ofBitsFrom 0 l

/-- Carry-less (GF(2) polynomial) product, fuel-based; the first argument is
fuel, always sufficient when it equals the multiplicand. -/
def clmulAux : Nat → Nat → Nat → Nat
  | 0, _, _ => 0
  | fuel + 1, a, b => if a = 0 then 0 else 2 * clmulAux fuel (a / 2) b ^^^ a % 2 * b

/-- Carry-less (GF(2) polynomial) product of the encodings `a` and `b`. -/
def clmul (a b : Nat) : Nat := clmulAux a a b

/-- Tap mask actually applied by `BinLFSR.step` for width `n`: bits `1..n-1`
of `g` together with a constant term that is forced to 1. -/
def gtaps (g n : Nat) : Nat := g % 2 ^ n / 2 * 2 + 1

/-- Numeric effect of one `BinLFSR.step` on register value `s` (width `n`). -/
def lfsrStepNum (g n s : Nat) : Nat :=
  2 * s % 2 ^ n ^^^ (if s / 2 ^ (n - 1) % 2 = 1 then gtaps g n else 0)

/-- Value installed into the register by one `BinPolyDiv._div` iteration:
the clocked register with its least significant bit replaced by the feedback
computed from the previous iteration's injected value `w` and input `d`. -/
def stepW (g p w d : Nat) : Nat :=
  lfsrStepNum g p w / 2 * 2 + (if w / 2 ^ (p - 1) % 2 ^^^ d ≠ 0 then 1 else 0)

/-- Injected register value after consuming all of `d`, starting from `w`:
the value of the `remainder` array returned by `BinPolyDiv._div`. -/
def wRun (g p : Nat) : Nat → List Nat → Nat
  | w, [] => w
  | w, d :: rest => wRun g p (stepW g p w d) rest

/-- Quotient bits collected by `BinPolyDiv._div` starting from injected
value `w`: the top bit of each newly injected value, the last one dropped. -/
def qRun (g p : Nat) : Nat → List Nat → List Nat
  | _, [] => []
  | w, d :: rest =>
    (if rest = [] then [] else [stepW g p w d / 2 ^ (p - 1) % 2]) ++
      qRun g p (stepW g p w d) rest

/-- Top register bit before each iteration's feedback injection (the last
iteration emitting nothing), starting from injected value `w`. -/
def preTops (g p : Nat) : Nat → List Nat → List Nat
  | _, [] => []
  | w, d :: rest =>
    (if rest = [] then [] else [lfsrStepNum g p w / 2 ^ (p - 1) % 2]) ++
      preTops g p (stepW g p w d) rest

/-- One step of textbook GF(2) long division by a divisor `gf` of degree
exactly `p`: shift in the next dividend bit, subtract `gf` if the result
reaches degree `p`. -/
def divStep (gf p w d : Nat) : Nat :=
  if 2 ^ p ≤ 2 * w ^^^ d then (2 * w ^^^ d) ^^^ gf else 2 * w ^^^ d

/-- Remainder of the textbook long division of the bits `d` by `gf`,
starting from partial remainder `w`. -/
def wFold (gf p w : Nat) (d : List Nat) : Nat :=
  d.foldl (fun x b => divStep gf p x b) w

/-- Quotient bits of the textbook long division, MSB first, one per dividend
bit. -/
def qTrace (gf p : Nat) : Nat → List Nat → List Nat
  | _, [] => []
  | w, d :: rest =>
    (if 2 ^ p ≤ 2 * w ^^^ d then 1 else 0) :: qTrace gf p (divStep gf p w d) rest

/-- Register update map restricted to the `n`-bit state space `Fin (2^n)`
(the reduction modulo `2^n` is the identity on the update's value). -/
def lfsrFin (g n : Nat) (x : Fin (2 ^ n)) : Fin (2 ^ n) :=
  ⟨lfsrStepNum g n x.val % 2 ^ n, Nat.mod_lt _ (Nat.pos_pow_of_pos _ (by norm_num))⟩

/-- Degree of the nonzero GF(2) polynomial encoded by `n` (floor of the
base-2 logarithm), computed from the fuelled bit length. -/
def log2F (n : Nat) : Nat := bitLenAux n n - 1

/-- Remainder of the GF(2) polynomial `a` modulo `g` by repeated cancellation
of the leading coefficient, fuel-based (fuel `a` always suffices since each
round strictly decreases the value). -/
def gf2ModAux : Nat → Nat → Nat → Nat
  | 0, a, _ => a
  | fuel + 1, a, g =>
    if 2 ≤ g ∧ 2 ^ log2F g ≤ a then
      gf2ModAux fuel (a ^^^ (g <<< (log2F a - log2F g))) g
    else a

/-- Remainder of the GF(2) polynomial `a` modulo `g`. -/
def gf2Mod (a g : Nat) : Nat := gf2ModAux a a g

/-! Arithmetic of `^^^` on `Nat` encodings of GF(2) polynomials. -/

theorem xor_mod_two (a b : Nat) : (a ^^^ b) % 2 = a % 2 ^^^ b % 2 := by
  have h := Nat.testBit_xor a b 0
  simp only [Nat.testBit_to_div_mod, Nat.pow_zero, Nat.div_one] at h
  rcases Nat.mod_two_eq_zero_or_one a with h1 | h1 <;>
    rcases Nat.mod_two_eq_zero_or_one b with h2 | h2 <;>
      rcases Nat.mod_two_eq_zero_or_one (a ^^^ b) with h3 | h3 <;>
        simp [h1, h2, h3] at h ⊢

theorem two_mul_xor (a b : Nat) : 2 * a ^^^ 2 * b = 2 * (a ^^^ b) := by
  have h := @Nat.bitwise_bit bne rfl false a false b
  simpa [Nat.bit, HXor.hXor, Xor.xor] using h

theorem two_mul_xor_odd (a b : Nat) : 2 * a ^^^ (2 * b + 1) = 2 * (a ^^^ b) + 1 := by
  have h := @Nat.bitwise_bit bne rfl false a true b
  simpa [Nat.bit, HXor.hXor, Xor.xor] using h

theorem two_mul_xor_bit (a d : Nat) (hd : d < 2) : 2 * a ^^^ d = 2 * a + d := by
  interval_cases d
  · simp
  · simpa using two_mul_xor_odd a 0

theorem xor_div_pow (a b k : Nat) : (a ^^^ b) / 2 ^ k = a / 2 ^ k ^^^ b / 2 ^ k := by
  induction k with
  | zero => simp
  | succ k ih =>
    have h2 : (2 : Nat) ^ (k + 1) = 2 ^ k * 2 := by ring
    rw [h2, ← Nat.div_div_eq_div_mul, ← Nat.div_div_eq_div_mul, ← Nat.div_div_eq_div_mul,
      ih, Nat.xor_div_two]

theorem xor_lt_pow {a b k : Nat} (ha : a < 2 ^ k) (hb : b < 2 ^ k) : a ^^^ b < 2 ^ k := by
  by_contra h
  have h1 : 1 ≤ (a ^^^ b) / 2 ^ k :=
    (Nat.one_le_div_iff (Nat.pos_pow_of_pos k (by norm_num))).2 (le_of_not_lt h)
  rw [xor_div_pow, Nat.div_eq_of_lt ha, Nat.div_eq_of_lt hb] at h1
  simp at h1

theorem mul_pow_xor_add (a : Nat) : ∀ (k r : Nat), r < 2 ^ k →
    a * 2 ^ k ^^^ r = a * 2 ^ k + r := by
  intro k
  induction k generalizing a with
  | zero => intro r hr; interval_cases r; simp
  | succ k ih =>
    intro r hr
    have hrd : r = 2 * (r / 2) + r % 2 := (Nat.div_add_mod r 2).symm
    have hr2 : r / 2 < 2 ^ k := by
      apply Nat.div_lt_of_lt_mul
      calc r < 2 ^ (k + 1) := hr
        _ = 2 * 2 ^ k := by ring
    have hmul : a * 2 ^ (k + 1) = 2 * (a * 2 ^ k) := by ring
    rcases Nat.mod_two_eq_zero_or_one r with h | h
    · rw [hmul, hrd, h, Nat.add_zero, two_mul_xor, ih a _ hr2]; ring
    · rw [hmul, hrd, h, two_mul_xor_odd, ih a _ hr2]; ring

theorem pow_xor_add {k r : Nat} (hr : r < 2 ^ k) : 2 ^ k ^^^ r = 2 ^ k + r := by
  simpa using mul_pow_xor_add 1 k r hr

theorem xor_high_cancel {t gf k : Nat} (ht1 : 2 ^ k ≤ t) (ht2 : t < 2 ^ (k + 1))
    (hg1 : 2 ^ k ≤ gf) (hg2 : gf < 2 ^ (k + 1)) : t ^^^ gf < 2 ^ k := by
  have hpos : 0 < (2 : Nat) ^ k := Nat.pos_pow_of_pos k (by norm_num)
  have hdt : t / 2 ^ k = 1 := by
    have h1 : 1 ≤ t / 2 ^ k := (Nat.one_le_div_iff hpos).2 ht1
    have h2 : t / 2 ^ k < 2 := by
      apply Nat.div_lt_of_lt_mul
      calc t < 2 ^ (k + 1) := ht2
        _ = 2 ^ k * 2 := by ring
    omega
  have hdg : gf / 2 ^ k = 1 := by
    have h1 : 1 ≤ gf / 2 ^ k := (Nat.one_le_div_iff hpos).2 hg1
    have h2 : gf / 2 ^ k < 2 := by
      apply Nat.div_lt_of_lt_mul
      calc gf < 2 ^ (k + 1) := hg2
        _ = 2 ^ k * 2 := by ring
    omega
  by_contra h
  have h1 : 1 ≤ (t ^^^ gf) / 2 ^ k :=
    (Nat.one_le_div_iff hpos).2 (le_of_not_lt h)
  rw [xor_div_pow, hdt, hdg] at h1
  simp at h1

theorem xor_left_comm (a b c : Nat) : a ^^^ (b ^^^ c) = b ^^^ (a ^^^ c) := by
  rw [← Nat.xor_assoc, Nat.xor_comm a b, Nat.xor_assoc]

theorem xor_xor_cancel (a b : Nat) : a ^^^ (a ^^^ b) = b := by
  rw [← Nat.xor_assoc, Nat.xor_self, Nat.zero_xor]

/-! Facts about `clmul`. -/

theorem clmulAux_congr : ∀ f₁ f₂ a b : Nat, a ≤ f₁ → a ≤ f₂ →
    clmulAux f₁ a b = clmulAux f₂ a b := by
  intro f₁
  induction f₁ with
  | zero =>
    intro f₂ a b h1 _
    interval_cases a
    cases f₂ <;> simp [clmulAux]
  | succ f₁ ih =>
    intro f₂ a b h1 h2
    by_cases ha : a = 0
    · subst ha; cases f₂ <;> simp [clmulAux]
    · cases f₂ with
      | zero => omega
      | succ f₂ =>
        have hd : a / 2 < a := Nat.div_lt_self (Nat.pos_of_ne_zero ha) one_lt_two
        simp only [clmulAux, if_neg ha]
        rw [ih f₂ (a / 2) b (by omega) (by omega)]

theorem clmul_zero_left (b : Nat) : clmul 0 b = 0 := rfl

theorem clmul_unfold (a b : Nat) : clmul a b = 2 * clmul (a / 2) b ^^^ a % 2 * b := by
  cases a with
  | zero => simp [clmul, clmulAux]
  | succ a' =>
    have hd : (a' + 1) / 2 < a' + 1 := Nat.div_lt_self (by omega) one_lt_two
    show clmulAux (a' + 1) (a' + 1) b = _
    simp only [clmulAux, if_neg (Nat.succ_ne_zero a')]
    rw [clmul, clmulAux_congr a' ((a' + 1) / 2) ((a' + 1) / 2) b (by omega) (le_refl _)]

theorem clmul_one_left (b : Nat) : clmul 1 b = b := by
  rw [clmul_unfold]; simp [clmul_zero_left]

theorem clmul_two_mul_add (q qb b : Nat) (h : qb < 2) :
    clmul (2 * q + qb) b = 2 * clmul q b ^^^ qb * b := by
  rw [clmul_unfold]
  have h1 : (2 * q + qb) / 2 = q := by omega
  have h2 : (2 * q + qb) % 2 = qb := by omega
  rw [h1, h2]

theorem clmul_xor_left (c : Nat) : ∀ a b : Nat, clmul (a ^^^ b) c = clmul a c ^^^ clmul b c := by
  intro a
  induction a using Nat.strong_induction_on with
  | _ a ih =>
    intro b
    by_cases ha : a = 0
    · subst ha; simp [clmul_zero_left]
    · have hlt : a / 2 < a := Nat.div_lt_self (Nat.pos_of_ne_zero ha) one_lt_two
      rw [clmul_unfold (a ^^^ b) c, Nat.xor_div_two, xor_mod_two, ih (a / 2) hlt (b / 2),
        clmul_unfold a c, clmul_unfold b c, ← two_mul_xor]
      rcases Nat.mod_two_eq_zero_or_one a with h1 | h1 <;>
        rcases Nat.mod_two_eq_zero_or_one b with h2 | h2 <;>
          simp [h1, h2, Nat.xor_assoc, Nat.xor_comm, xor_left_comm, xor_xor_cancel]

theorem clmul_ge (c p : Nat) (hc1 : 2 ^ p ≤ c) (hc2 : c < 2 ^ (p + 1)) :
    ∀ a : Nat, a ≠ 0 → 2 ^ p ≤ clmul a c := by
  intro a
  induction a using Nat.strong_induction_on with
  | _ a ih =>
    intro ha
    by_cases h1 : a = 1
    · subst h1; rw [clmul_one_left]; exact hc1
    · have ha2 : a / 2 ≠ 0 := by omega
      have hlt : a / 2 < a := Nat.div_lt_self (Nat.pos_of_ne_zero ha) one_lt_two
      have hIH := ih (a / 2) hlt ha2
      have hX : 2 ^ (p + 1) ≤ 2 * clmul (a / 2) c := by
        calc (2 : Nat) ^ (p + 1) = 2 * 2 ^ p := by ring
          _ ≤ 2 * clmul (a / 2) c := by omega
      have hY : a % 2 * c < 2 ^ (p + 1) := by
        rcases Nat.mod_two_eq_zero_or_one a with h | h
        · rw [h, Nat.zero_mul]
          exact Nat.pos_pow_of_pos _ (by norm_num)
        · rw [h, Nat.one_mul]
          exact hc2
      have hpos : 0 < (2 : Nat) ^ (p + 1) := Nat.pos_pow_of_pos _ (by norm_num)
      rw [clmul_unfold]
      have hdiv := xor_div_pow (2 * clmul (a / 2) c) (a % 2 * c) (p + 1)
      rw [Nat.div_eq_of_lt hY] at hdiv
      have h1le : 1 ≤ (2 * clmul (a / 2) c ^^^ a % 2 * c) / 2 ^ (p + 1) := by
        rw [hdiv]
        simpa using (Nat.one_le_div_iff hpos).2 hX
      have h2le := (Nat.one_le_div_iff hpos).1 h1le
      calc (2 : Nat) ^ p ≤ 2 ^ (p + 1) := Nat.pow_le_pow_right (by norm_num) (by omega)
        _ ≤ _ := h2le

/-! Relating `from_bit_array` to `ofBits`, and facts about `to_bit_array`. -/

theorem foldl_add_range (f : Nat → Nat) : ∀ (n a : Nat),
    (List.range n).foldl (fun acc p => acc + f p) a = a + ∑ p ∈ Finset.range n, f p := by
  intro n
  induction n with
  | zero => intro a; simp
  | succ n ih =>
    intro a
    rw [List.range_succ, List.foldl_append, ih, Finset.sum_range_succ]
    simp [Nat.add_assoc]

theorem ofBitsFrom_eq (l : List Nat) : ∀ a : Nat,
    ofBitsFrom a l = a * 2 ^ l.length + ofBits l := by
  induction l with
  | nil => intro a; simp [ofBitsFrom, ofBits]
  | cons b t ih =>
    intro a
    show ofBitsFrom (2 * a + b % 2) t = _
    rw [ih (2 * a + b % 2)]
    have : ofBits (b :: t) = ofBitsFrom (b % 2) t := by
      simp [ofBits, ofBitsFrom]
    rw [this, ih (b % 2)]
    simp [List.length_cons]
    ring

theorem ofBits_cons (b : Nat) (t : List Nat) :
    ofBits (b :: t) = b % 2 * 2 ^ t.length + ofBits t := by
  have : ofBits (b :: t) = ofBitsFrom (b % 2) t := by simp [ofBits, ofBitsFrom]
  rw [this, ofBitsFrom_eq]

theorem ofBits_lt (l : List Nat) : ofBits l < 2 ^ l.length := by
  induction l with
  | nil => simp [ofBits, ofBitsFrom]
  | cons b t ih =>
    rw [ofBits_cons]
    have h1 : b % 2 ≤ 1 := by omega
    have h2 : b % 2 * 2 ^ t.length ≤ 2 ^ t.length := by
      calc b % 2 * 2 ^ t.length ≤ 1 * 2 ^ t.length := Nat.mul_le_mul_right _ h1
        _ = 2 ^ t.length := by ring
    calc b % 2 * 2 ^ t.length + ofBits t < b % 2 * 2 ^ t.length + 2 ^ t.length := by omega
      _ ≤ 2 ^ t.length + 2 ^ t.length := by omega
      _ = 2 ^ (b :: t).length := by rw [List.length_cons]; ring

theorem ofBits_sum (l : List Nat) :
    ofBits l = ∑ i ∈ Finset.range l.length, l.getD i 0 % 2 * 2 ^ (l.length - 1 - i) := by
  induction l with
  | nil => simp [ofBits, ofBitsFrom]
  | cons b t ih =>
    rw [ofBits_cons, ih, List.length_cons, Finset.sum_range_succ']
    have h0 : (b :: t).getD 0 0 % 2 * 2 ^ (t.length + 1 - 1 - 0) = b % 2 * 2 ^ t.length := by
      simp
    rw [h0, Nat.add_comm]
    congr 1
    apply Finset.sum_congr rfl
    intro i hi
    have hi' : i < t.length := Finset.mem_range.1 hi
    rw [List.getD_cons_succ]
    congr 2
    omega

theorem sum_bits_eq_mod (v : Nat) : ∀ n : Nat,
    ∑ p ∈ Finset.range n, v / 2 ^ p % 2 * 2 ^ p = v % 2 ^ n := by
  intro n
  induction n with
  | zero => simp [Nat.mod_one]
  | succ n ih =>
    rw [Finset.sum_range_succ, ih]
    have h2 : (2 : Nat) ^ (n + 1) = 2 ^ n * 2 := by ring
    rw [h2, Nat.mod_mul]
    ring

theorem from_bit_array_eq (arr : List Nat) : from_bit_array arr = ofBits arr := by
  rw [from_bit_array, foldl_add_range, Nat.zero_add, ofBits_sum]
  rw [← Finset.sum_range_reflect (fun i => arr.getD i 0 % 2 * 2 ^ (arr.length - 1 - i)) arr.length]
  apply Finset.sum_congr rfl
  intro p hp
  have hp' : p < arr.length := Finset.mem_range.1 hp
  have h1 : arr.length - 1 - (arr.length - p - 1) = p := by omega
  have h2 : arr.length - 1 - p = arr.length - p - 1 := by omega
  rw [h2, h1]

theorem to_bit_array_pos (v len : Nat) (h : len ≠ 0) :
    to_bit_array v len = (List.range len).map fun i => v / 2 ^ (len - i - 1) % 2 := by
  simp [to_bit_array, h]

theorem to_bit_array_length (v len : Nat) (h : len ≠ 0) :
    (to_bit_array v len).length = len := by
  rw [to_bit_array_pos v len h]
  simp

theorem to_bit_array_getD (v len i : Nat) (h : i < len) :
    (to_bit_array v len).getD i 0 = v / 2 ^ (len - i - 1) % 2 := by
  rw [to_bit_array_pos v len (by omega), List.getD_eq_getElem?_getD, List.getElem?_map,
    List.getElem?_range h]
  rfl

theorem to_bit_array_mem_lt (v len : Nat) : ∀ x ∈ to_bit_array v len, x < 2 := by
  intro x hx
  rw [to_bit_array] at hx
  simp at hx
  obtain ⟨i, _, rfl⟩ := hx
  omega

theorem ofBits_to_bit_array (v len : Nat) (h : len ≠ 0) :
    ofBits (to_bit_array v len) = v % 2 ^ len := by
  rw [ofBits_sum, to_bit_array_length v len h]
  rw [← sum_bits_eq_mod v len, ← Finset.sum_range_reflect (fun p => v / 2 ^ p % 2 * 2 ^ p) len]
  apply Finset.sum_congr rfl
  intro i hi
  have hi' : i < len := Finset.mem_range.1 hi
  rw [to_bit_array_getD v len i hi']
  have h1 : len - i - 1 = len - 1 - i := by omega
  rw [h1]
  congr 1
  omega

/-! List helpers: pointwise descriptions of `List.set` and of the two
index-writing `foldl` loops of the source, and extensionality via `getD`. -/

theorem list_ext_getD (a b : List Nat) (hl : a.length = b.length)
    (h : ∀ i, i < a.length → a.getD i 0 = b.getD i 0) : a = b := by
  apply List.ext_getElem hl
  intro i h1 h2
  have h3 := h i h1
  rwa [List.getD_eq_getElem a 0 h1, List.getD_eq_getElem b 0 h2] at h3

theorem getD_set (l : List Nat) (i j a : Nat) :
    (l.set i a).getD j 0 = if i = j ∧ i < l.length then a else l.getD j 0 := by
  rw [List.getD_eq_getElem?_getD, List.getElem?_set]
  by_cases h1 : i = j
  · subst h1
    by_cases h2 : i < l.length
    · simp [h2]
    · rw [if_pos rfl, if_neg h2, if_neg (by omega)]
      rw [List.getD_eq_getElem?_getD, List.getElem?_eq_none (by omega)]
  · rw [if_neg h1, if_neg (by tauto), List.getD_eq_getElem?_getD]

theorem lfsr_fold_length (gv : List Nat) (val : Nat → Nat) :
    ∀ (m : Nat) (arr : List Nat),
      ((List.range m).foldl
        (fun arr i => if gv.getD (i + 1) 0 ≠ 0 then arr.set i (val i) else arr) arr).length
      = arr.length := by
  intro m
  induction m with
  | zero => intro arr; rfl
  | succ m ih =>
    intro arr
    rw [List.range_succ, List.foldl_append]
    simp only [List.foldl_cons, List.foldl_nil]
    by_cases h : gv.getD (m + 1) 0 ≠ 0
    · rw [if_pos h, List.length_set, ih]
    · rw [if_neg h, ih]

theorem lfsr_fold_getD (gv : List Nat) (val : Nat → Nat) :
    ∀ (m : Nat) (arr : List Nat) (j : Nat),
      ((List.range m).foldl
        (fun arr i => if gv.getD (i + 1) 0 ≠ 0 then arr.set i (val i) else arr) arr).getD j 0
      = if j < m ∧ j < arr.length ∧ gv.getD (j + 1) 0 ≠ 0 then val j else arr.getD j 0 := by
  intro m
  induction m with
  | zero =>
    intro arr j
    rw [if_neg (by omega)]
    rfl
  | succ m ih =>
    intro arr j
    rw [List.range_succ, List.foldl_append]
    simp only [List.foldl_cons, List.foldl_nil]
    by_cases hg : gv.getD (m + 1) 0 ≠ 0
    · rw [if_pos hg, getD_set, lfsr_fold_length, ih]
      by_cases hc : j < m + 1 ∧ j < arr.length ∧ gv.getD (j + 1) 0 ≠ 0
      · rw [if_pos hc]
        obtain ⟨hc1, hc2, hc3⟩ := hc
        by_cases hj : j = m
        · subst hj
          rw [if_pos ⟨rfl, hc2⟩]
        · rw [if_neg (by intro hk; exact hj hk.1.symm), if_pos ⟨by omega, hc2, hc3⟩]
      · rw [if_neg hc]
        by_cases hj2 : m = j ∧ m < arr.length
        · obtain ⟨hj2, hlen⟩ := hj2
          subst hj2
          exact absurd ⟨by omega, hlen, hg⟩ hc
        · rw [if_neg hj2, if_neg (by intro hk; exact hc ⟨by omega, hk.2⟩)]
    · rw [if_neg hg, ih]
      by_cases hc : j < m ∧ j < arr.length ∧ gv.getD (j + 1) 0 ≠ 0
      · rw [if_pos hc, if_pos ⟨by omega, hc.2⟩]
      · rw [if_neg hc]
        rw [if_neg (by
          intro hk
          by_cases hj : j = m
          · subst hj; exact hg hk.2.2
          · exact hc ⟨by omega, hk.2⟩)]

/-! Bit extraction facts and the numeric characterisation of `BinLFSR.step`. -/

theorem mod_pow_div_bit (x n e : Nat) (h : e < n) : x % 2 ^ n / 2 ^ e % 2 = x / 2 ^ e % 2 := by
  have h1 := Nat.testBit_mod_two_pow x n e
  simp only [Nat.testBit_to_div_mod] at h1
  rcases Nat.mod_two_eq_zero_or_one (x % 2 ^ n / 2 ^ e) with h2 | h2 <;>
    rcases Nat.mod_two_eq_zero_or_one (x / 2 ^ e) with h3 | h3 <;>
      simp [h, h2, h3] at h1 ⊢

theorem gtaps_odd (g n : Nat) : gtaps g n % 2 = 1 := by
  rw [gtaps]; omega

theorem gtaps_lt (g n : Nat) (hn : n ≠ 0) : gtaps g n < 2 ^ n := by
  have h1 : g % 2 ^ n < 2 ^ n := Nat.mod_lt _ (Nat.pos_pow_of_pos _ (by norm_num))
  have h2 : 2 ≤ 2 ^ n := by
    calc (2 : Nat) = 2 ^ 1 := by norm_num
      _ ≤ 2 ^ n := Nat.pow_le_pow_right (by norm_num) (by omega)
  have h3 : (2 : Nat) ^ n % 2 = 0 := by
    have h4 : n = (n - 1) + 1 := by omega
    rw [h4, pow_succ]
    omega
  rw [gtaps]; omega

theorem gtaps_bit (g n e : Nat) (h1 : 1 ≤ e) (h2 : e < n) :
    gtaps g n / 2 ^ e % 2 = g / 2 ^ e % 2 := by
  have h3 : (2 : Nat) ^ e = 2 * 2 ^ (e - 1) := by
    have h4 : e = (e - 1) + 1 := by omega
    rw [h4, pow_succ]
    have h5 : e - 1 + 1 - 1 = e - 1 := by omega
    rw [h5]; ring
  have h6 : gtaps g n / 2 ^ e = g % 2 ^ n / 2 ^ e := by
    rw [gtaps, h3, ← Nat.div_div_eq_div_mul, ← Nat.div_div_eq_div_mul]
    congr 1
    omega
  rw [h6, mod_pow_div_bit _ _ _ h2]

theorem two_mul_mod_pow_even (s n : Nat) (hn : n ≠ 0) : 2 * s % 2 ^ n % 2 = 0 := by
  have h3 : (2 : Nat) ^ n = 2 * 2 ^ (n - 1) := by
    have h4 : n = (n - 1) + 1 := by omega
    rw [h4, pow_succ]
    have h5 : n - 1 + 1 - 1 = n - 1 := by omega
    rw [h5]; ring
  rw [h3, Nat.mod_mul]
  omega

theorem lfsrStepNum_lt (g n s : Nat) (hn : n ≠ 0) : lfsrStepNum g n s < 2 ^ n := by
  rw [lfsrStepNum]
  have h1 : 2 * s % 2 ^ n < 2 ^ n := Nat.mod_lt _ (Nat.pos_pow_of_pos _ (by norm_num))
  by_cases h : s / 2 ^ (n - 1) % 2 = 1
  · rw [if_pos h]
    exact xor_lt_pow h1 (gtaps_lt g n hn)
  · rw [if_neg h]
    simpa using h1

theorem step_array_eq (g n s : Nat) (hn : n ≠ 0) :
    (List.range (n - 1)).foldl
      (fun arr i =>
        if (to_bit_array g (n + 1)).getD (i + 1) 0 ≠ 0 then
          arr.set i ((to_bit_array s n).getD (i + 1) 0 ^^^ (to_bit_array s n).getD 0 0)
        else arr)
      ((to_bit_array (s * 2) n).set (n - 1) ((to_bit_array s n).getD 0 0))
      = to_bit_array (lfsrStepNum g n s) n := by
  have hlen : ((to_bit_array (s * 2) n).set (n - 1) ((to_bit_array s n).getD 0 0)).length = n := by
    rw [List.length_set, to_bit_array_length _ _ hn]
  have hsv0 : (to_bit_array s n).getD 0 0 = s / 2 ^ (n - 1) % 2 := by
    rw [to_bit_array_getD _ _ _ (by omega)]
    norm_num
  apply list_ext_getD
  · rw [lfsr_fold_length, hlen, to_bit_array_length _ _ hn]
  · intro j hj
    rw [lfsr_fold_length, hlen] at hj
    rw [lfsr_fold_getD, hlen, getD_set, to_bit_array_length _ _ hn,
      to_bit_array_getD (lfsrStepNum g n s) n j hj, lfsrStepNum, xor_div_pow, xor_mod_two, hsv0]
    by_cases hjn : j = n - 1
    · subst hjn
      have he0 : n - (n - 1) - 1 = 0 := by omega
      rw [he0, pow_zero, Nat.div_one, Nat.div_one, if_neg (by omega), if_pos ⟨rfl, by omega⟩]
      have hev : 2 * s % 2 ^ n % 2 = 0 := two_mul_mod_pow_even s n hn
      rw [hev]
      by_cases htop : s / 2 ^ (n - 1) % 2 = 1
      · rw [if_pos htop, htop, gtaps_odd]
        decide
      · rw [if_neg htop]
        have h0 : s / 2 ^ (n - 1) % 2 = 0 := by omega
        rw [h0]
        decide
    · have he1 : 1 ≤ n - j - 1 := by omega
      have hshift : 2 * s % 2 ^ n / 2 ^ (n - j - 1) % 2 = s / 2 ^ (n - j - 2) % 2 := by
        rw [mod_pow_div_bit _ _ _ (by omega : n - j - 1 < n)]
        have h3 : (2 : Nat) ^ (n - j - 1) = 2 * 2 ^ (n - j - 2) := by
          have h4 : n - j - 1 = (n - j - 2) + 1 := by omega
          rw [h4, pow_succ]; ring
        rw [h3, ← Nat.div_div_eq_div_mul, (by omega : 2 * s / 2 = s)]
      have hsv1 : (to_bit_array s n).getD (j + 1) 0 = s / 2 ^ (n - j - 2) % 2 := by
        rw [to_bit_array_getD _ _ _ (by omega), (by omega : n - (j + 1) - 1 = n - j - 2)]
      have hg : (to_bit_array g (n + 1)).getD (j + 1) 0 = g / 2 ^ (n - j - 1) % 2 := by
        rw [to_bit_array_getD _ _ _ (by omega), (by omega : n + 1 - (j + 1) - 1 = n - j - 1)]
      have hshifted : (to_bit_array (s * 2) n).getD j 0 = s / 2 ^ (n - j - 2) % 2 := by
        rw [to_bit_array_getD _ _ _ hj, Nat.mul_comm s 2]
        rw [← mod_pow_div_bit (2 * s) n (n - j - 1) (by omega)]
        exact hshift
      have hT : (if s / 2 ^ (n - 1) % 2 = 1 then gtaps g n else 0) / 2 ^ (n - j - 1) % 2
          = (if s / 2 ^ (n - 1) % 2 = 1 then 1 else 0) * (g / 2 ^ (n - j - 1) % 2) := by
        by_cases htop : s / 2 ^ (n - 1) % 2 = 1
        · rw [if_pos htop, if_pos htop, gtaps_bit g n _ he1 (by omega), Nat.one_mul]
        · rw [if_neg htop, if_neg htop, Nat.zero_div, Nat.zero_mod, Nat.zero_mul]
      rw [hshift, hT, hg, hsv1]
      by_cases hgb : g / 2 ^ (n - j - 1) % 2 = 0
      · rw [hgb, if_neg (by simp [hgb]), if_neg (by omega), hshifted, Nat.mul_zero,
          Nat.xor_zero]
      · have hgb1 : g / 2 ^ (n - j - 1) % 2 = 1 := by omega
        rw [hgb1, if_pos ⟨by omega, hj, by omega⟩, Nat.mul_one]
        by_cases htop : s / 2 ^ (n - 1) % 2 = 1
        · rw [if_pos htop, htop]
        · rw [if_neg htop]
          have h0 : s / 2 ^ (n - 1) % 2 = 0 := by omega
          rw [h0]

theorem step_eq (g n s : Nat) (hn : n ≠ 0) :
    BinLFSR.step g n s = (lfsrStepNum g n s / 2 ^ (n - 1) % 2, lfsrStepNum g n s) := by
  have harr := step_array_eq g n s hn
  have h2 : from_bit_array (to_bit_array (lfsrStepNum g n s) n) = lfsrStepNum g n s := by
    rw [from_bit_array_eq, ofBits_to_bit_array _ _ hn,
      Nat.mod_eq_of_lt (lfsrStepNum_lt g n s hn)]
  have h1 : (to_bit_array (lfsrStepNum g n s) n).getD 0 0
      = lfsrStepNum g n s / 2 ^ (n - 1) % 2 := by
    rw [to_bit_array_getD _ _ _ (by omega)]
    norm_num
  simp only [BinLFSR.step]
  rw [harr, h1, h2]

/-! Bridging `BinPolyDiv._div` to the numeric recurrences `wRun` and `qRun`. -/

theorem to_bit_array_set_last (v len f : Nat) (h : len ≠ 0) (hf : f < 2) :
    (to_bit_array v len).set (len - 1) f = to_bit_array (v / 2 * 2 + f) len := by
  apply list_ext_getD
  · rw [List.length_set, to_bit_array_length _ _ h, to_bit_array_length _ _ h]
  · intro j hj
    rw [List.length_set, to_bit_array_length _ _ h] at hj
    rw [getD_set, to_bit_array_length _ _ h, to_bit_array_getD v len j hj,
      to_bit_array_getD (v / 2 * 2 + f) len j hj]
    by_cases hj1 : len - 1 = j
    · subst hj1
      rw [if_pos ⟨rfl, by omega⟩, (by omega : len - (len - 1) - 1 = 0), pow_zero, Nat.div_one]
      omega
    · rw [if_neg (by tauto)]
      have h3 : (2 : Nat) ^ (len - j - 1) = 2 * 2 ^ (len - j - 2) := by
        have h4 : len - j - 1 = (len - j - 2) + 1 := by omega
        rw [h4, pow_succ]; ring
      rw [h3, ← Nat.div_div_eq_div_mul, ← Nat.div_div_eq_div_mul,
        (by omega : (v / 2 * 2 + f) / 2 = v / 2)]

theorem lfsrStepNum_zero (g p : Nat) : lfsrStepNum g p 0 = 0 := by
  simp [lfsrStepNum]

theorem stepW_lt (g p w d : Nat) (hp : p ≠ 0) : stepW g p w d < 2 ^ p := by
  have h1 := lfsrStepNum_lt g p w hp
  have h3 : (2 : Nat) ^ p % 2 = 0 := by
    have h4 : p = (p - 1) + 1 := by omega
    rw [h4, pow_succ]; omega
  rw [stepW]
  split <;> omega

theorem divLoop_eq (g p : Nat) (hp : p ≠ 0) : ∀ (d : List Nat) (w : Nat) (q0 : List Nat),
    w < 2 ^ p →
    BinPolyDiv.divLoop g p d (to_bit_array (lfsrStepNum g p w) p) (to_bit_array w p) q0
      (lfsrStepNum g p w)
    = (q0 ++ qRun g p w d, to_bit_array (wRun g p w d) p,
        lfsrStepNum g p (wRun g p w d)) := by
  intro d
  induction d with
  | nil =>
    intro w q0 hw
    simp [BinPolyDiv.divLoop, wRun, qRun]
  | cons dj rest ih =>
    intro w q0 hw
    have hgetD : (to_bit_array w p).getD 0 0 = w / 2 ^ (p - 1) % 2 := by
      rw [to_bit_array_getD _ _ _ (by omega)]
      norm_num
    have hmm : w / 2 ^ (p - 1) % 2 % 2 = w / 2 ^ (p - 1) % 2 := by omega
    have hf : (if w / 2 ^ (p - 1) % 2 ^^^ dj ≠ 0 then 1 else 0) < 2 := by split <;> omega
    have hsw : lfsrStepNum g p w / 2 * 2 + (if w / 2 ^ (p - 1) % 2 ^^^ dj ≠ 0 then 1 else 0)
        = stepW g p w dj := rfl
    have hfb : from_bit_array (to_bit_array (stepW g p w dj) p) = stepW g p w dj := by
      rw [from_bit_array_eq, ofBits_to_bit_array _ _ hp,
        Nat.mod_eq_of_lt (stepW_lt g p w dj hp)]
    have htop : (to_bit_array (stepW g p w dj) p).getD 0 0
        = stepW g p w dj / 2 ^ (p - 1) % 2 := by
      rw [to_bit_array_getD _ _ _ (by omega)]
      norm_num
    simp only [BinPolyDiv.divLoop]
    rw [hgetD, hmm, to_bit_array_length (lfsrStepNum g p w) p hp,
      to_bit_array_set_last (lfsrStepNum g p w) p _ hp hf, hsw, hfb,
      step_eq g p (stepW g p w dj) hp, htop]
    rw [ih (stepW g p w dj) _ (stepW_lt g p w dj hp)]
    simp only [wRun, qRun]
    by_cases hrest : rest = []
    · simp [hrest]
    · simp [hrest, List.append_assoc]

theorem wRun_lt (g p : Nat) (hp : p ≠ 0) : ∀ (d : List Nat) (w : Nat), w < 2 ^ p →
    wRun g p w d < 2 ^ p := by
  intro d
  induction d with
  | nil => intro w hw; exact hw
  | cons dj rest ih =>
    intro w hw
    exact ih (stepW g p w dj) (stepW_lt g p w dj hp)

theorem div_eq_runs (g p : Nat) (hp : p ≠ 0) (d : List Nat) :
    BinPolyDiv._div g p d = (qRun g p 0 d, to_bit_array (wRun g p 0 d) p) := by
  have h := divLoop_eq g p hp d 0 [] (Nat.pos_pow_of_pos _ (by norm_num))
  rw [lfsrStepNum_zero] at h
  rw [BinPolyDiv._div, h]
  simp

theorem lfsrAfter_eq (g p : Nat) (hp : p ≠ 0) (d : List Nat) :
    BinPolyDiv.lfsrAfter g p d = lfsrStepNum g p (wRun g p 0 d) := by
  have h := divLoop_eq g p hp d 0 [] (Nat.pos_pow_of_pos _ (by norm_num))
  rw [lfsrStepNum_zero] at h
  rw [BinPolyDiv.lfsrAfter, h]

theorem remainder_eq_wRun (g p : Nat) (hp : p ≠ 0) (d : List Nat) :
    BinPolyDiv.remainder g p d = wRun g p 0 d := by
  rw [BinPolyDiv.remainder, div_eq_runs g p hp d, from_bit_array_eq,
    ofBits_to_bit_array _ _ hp,
    Nat.mod_eq_of_lt (wRun_lt g p hp d 0 (Nat.pos_pow_of_pos _ (by norm_num)))]

/-! Equivalence of the code's register recurrence with textbook long
division, for 0/1 dividend bits. -/

theorem stepW_eq_divStep (g p w d : Nat) (hp : p ≠ 0) (hw : w < 2 ^ p) (hd : d < 2) :
    stepW g p w d = divStep (2 ^ p + gtaps g p) p w d := by
  have hpow : (2 : Nat) ^ p = 2 * 2 ^ (p - 1) := by
    cases p with
    | zero => exact absurd rfl hp
    | succ k => simp [pow_succ, Nat.mul_comm]
  have htople : w / 2 ^ (p - 1) < 2 := by
    apply Nat.div_lt_of_lt_mul
    omega
  by_cases htop : w / 2 ^ (p - 1) % 2 = 1
  · have hwge : 2 ^ (p - 1) ≤ w := by
      by_contra hlt
      push_neg at hlt
      rw [Nat.div_eq_of_lt hlt] at htop
      simp at htop
    have h2w1 : 2 ^ p ≤ 2 * w := by omega
    have hA : 2 * w % 2 ^ p = 2 * w - 2 ^ p := by
      rw [Nat.mod_eq_sub_mod h2w1, Nat.mod_eq_of_lt (by omega)]
    have hgodd := gtaps_odd g p
    have hglt := gtaps_lt g p hp
    have hf : (if w / 2 ^ (p - 1) % 2 ^^^ d ≠ 0 then 1 else 0) = 1 - d := by
      rw [htop]
      interval_cases d <;> decide
    have hAd : (2 * w - 2 ^ p) ^^^ d = (2 * w - 2 ^ p) + d := by
      have heq : 2 * w - 2 ^ p = 2 * ((2 * w - 2 ^ p) / 2) := by omega
      rw [heq, two_mul_xor_bit _ d hd]
    rw [stepW, hf, divStep, two_mul_xor_bit w d hd, if_pos (by omega)]
    have h1 : 2 * w + d = 2 ^ p + ((2 * w - 2 ^ p) ^^^ d) := by rw [hAd]; omega
    have h2 : (2 * w - 2 ^ p) ^^^ d < 2 ^ p := by rw [hAd]; omega
    rw [h1, ← pow_xor_add h2, ← pow_xor_add hglt]
    have h3 : (2 ^ p ^^^ ((2 * w - 2 ^ p) ^^^ d)) ^^^ (2 ^ p ^^^ gtaps g p)
        = ((2 * w - 2 ^ p) ^^^ gtaps g p) ^^^ d := by
      rw [Nat.xor_comm (2 ^ p) ((2 * w - 2 ^ p) ^^^ d), Nat.xor_assoc, xor_xor_cancel,
        Nat.xor_assoc, Nat.xor_comm d (gtaps g p), ← Nat.xor_assoc]
    rw [h3]
    have hv : lfsrStepNum g p w = (2 * w - 2 ^ p) ^^^ gtaps g p := by
      rw [lfsrStepNum, if_pos htop, hA]
    have hvodd : ((2 * w - 2 ^ p) ^^^ gtaps g p) % 2 = 1 := by
      rw [xor_mod_two, hgodd, (by omega : (2 * w - 2 ^ p) % 2 = 0)]
      decide
    rw [hv]
    interval_cases d
    · rw [Nat.xor_zero]
      omega
    · have hx1 : ((2 * w - 2 ^ p) ^^^ gtaps g p) ^^^ 1
          = ((2 * w - 2 ^ p) ^^^ gtaps g p) - 1 := by
        have hk : (2 * w - 2 ^ p) ^^^ gtaps g p
            = 2 * (((2 * w - 2 ^ p) ^^^ gtaps g p) / 2) + 1 := by omega
        calc ((2 * w - 2 ^ p) ^^^ gtaps g p) ^^^ 1
            = (2 * (((2 * w - 2 ^ p) ^^^ gtaps g p) / 2) ^^^ 1) ^^^ 1 := by
              rw [two_mul_xor_bit _ 1 (by omega), ← hk]
          _ = 2 * (((2 * w - 2 ^ p) ^^^ gtaps g p) / 2) := by
              rw [Nat.xor_assoc, Nat.xor_self, Nat.xor_zero]
          _ = ((2 * w - 2 ^ p) ^^^ gtaps g p) - 1 := by omega
      rw [hx1]
      omega
  · have htop0 : w / 2 ^ (p - 1) % 2 = 0 := by omega
    have hwlt : w < 2 ^ (p - 1) := by
      by_contra hge
      push_neg at hge
      have h1le : 1 ≤ w / 2 ^ (p - 1) :=
        (Nat.one_le_div_iff (Nat.pos_pow_of_pos _ (by norm_num))).2 hge
      omega
    have h2w : 2 * w % 2 ^ p = 2 * w := Nat.mod_eq_of_lt (by omega)
    have hv : lfsrStepNum g p w = 2 * w := by
      rw [lfsrStepNum, if_neg htop, h2w, Nat.xor_zero]
    have hf : (if w / 2 ^ (p - 1) % 2 ^^^ d ≠ 0 then 1 else 0) = d := by
      rw [htop0]
      interval_cases d <;> decide
    rw [stepW, hf, hv, divStep, two_mul_xor_bit w d hd, if_neg (by omega)]
    omega

theorem wRun_eq_wFold (g p : Nat) (hp : p ≠ 0) : ∀ (d : List Nat), (∀ x ∈ d, x < 2) →
    ∀ w, w < 2 ^ p → wRun g p w d = wFold (2 ^ p + gtaps g p) p w d := by
  intro d
  induction d with
  | nil => intro _ w _; rfl
  | cons dj rest ih =>
    intro h01 w hw
    have hd : dj < 2 := h01 dj (List.mem_cons_self dj rest)
    have h1 : wRun g p w (dj :: rest) = wRun g p (stepW g p w dj) rest := rfl
    have h2 : wFold (2 ^ p + gtaps g p) p w (dj :: rest)
        = wFold (2 ^ p + gtaps g p) p (divStep (2 ^ p + gtaps g p) p w dj) rest := rfl
    rw [h1, h2, ← stepW_eq_divStep g p w dj hp hw hd]
    exact ih (fun x hx => h01 x (List.mem_cons_of_mem dj hx)) (stepW g p w dj)
      (stepW_lt g p w dj hp)

theorem indicator_eq_top (p w d : Nat) (hp : p ≠ 0) (hw : w < 2 ^ p) (hd : d < 2) :
    (if 2 ^ p ≤ 2 * w ^^^ d then 1 else 0) = w / 2 ^ (p - 1) % 2 := by
  rw [two_mul_xor_bit w d hd]
  have hpow : (2 : Nat) ^ p = 2 * 2 ^ (p - 1) := by
    cases p with
    | zero => exact absurd rfl hp
    | succ k => simp [pow_succ, Nat.mul_comm]
  by_cases hge : 2 ^ (p - 1) ≤ w
  · rw [if_pos (by omega)]
    have h1le : 1 ≤ w / 2 ^ (p - 1) :=
      (Nat.one_le_div_iff (Nat.pos_pow_of_pos _ (by norm_num))).2 hge
    have h2 : w / 2 ^ (p - 1) < 2 := by
      apply Nat.div_lt_of_lt_mul
      omega
    omega
  · push_neg at hge
    rw [if_neg (by omega), Nat.div_eq_of_lt hge]

theorem qTrace_eq (g p : Nat) (hp : p ≠ 0) : ∀ (d : List Nat), (∀ x ∈ d, x < 2) →
    ∀ w, w < 2 ^ p →
    qTrace (2 ^ p + gtaps g p) p w d
      = if d = [] then [] else w / 2 ^ (p - 1) % 2 :: qRun g p w d := by
  intro d
  induction d with
  | nil => intro _ w _; rfl
  | cons dj rest ih =>
    intro h01 w hw
    have hd : dj < 2 := h01 dj (List.mem_cons_self dj rest)
    have h1 : qTrace (2 ^ p + gtaps g p) p w (dj :: rest)
        = (if 2 ^ p ≤ 2 * w ^^^ dj then 1 else 0)
          :: qTrace (2 ^ p + gtaps g p) p (divStep (2 ^ p + gtaps g p) p w dj) rest := rfl
    rw [h1, if_neg (List.cons_ne_nil dj rest), indicator_eq_top p w dj hp hw hd,
      ← stepW_eq_divStep g p w dj hp hw hd,
      ih (fun x hx => h01 x (List.mem_cons_of_mem dj hx)) (stepW g p w dj)
        (stepW_lt g p w dj hp)]
    simp only [qRun]
    by_cases hrest : rest = [] <;> simp [hrest, qRun]

theorem div_invariant (gf p : Nat) (hgf1 : 2 ^ p ≤ gf) (hgf2 : gf < 2 ^ (p + 1)) :
    ∀ (d : List Nat), (∀ x ∈ d, x < 2) → ∀ (w qa : Nat), w < 2 ^ p →
      clmul (ofBitsFrom qa (qTrace gf p w d)) gf ^^^ wFold gf p w d
        = ofBitsFrom (clmul qa gf ^^^ w) d
      ∧ wFold gf p w d < 2 ^ p := by
  intro d
  induction d with
  | nil =>
    intro _ w qa hw
    exact ⟨rfl, hw⟩
  | cons dj rest ih =>
    intro h01 w qa hw
    have hd : dj < 2 := h01 dj (List.mem_cons_self dj rest)
    have hpow : (2 : Nat) ^ (p + 1) = 2 * 2 ^ p := by rw [pow_succ]; ring
    have hnext : divStep gf p w dj < 2 ^ p := by
      rw [divStep]
      by_cases hc : 2 ^ p ≤ 2 * w ^^^ dj
      · rw [if_pos hc]
        exact xor_high_cancel hc (by rw [two_mul_xor_bit w dj hd]; omega) hgf1 hgf2
      · rw [if_neg hc]; omega
    obtain ⟨ihEq, ihLt⟩ := ih (fun x hx => h01 x (List.mem_cons_of_mem dj hx))
      (divStep gf p w dj) (2 * qa + (if 2 ^ p ≤ 2 * w ^^^ dj then 1 else 0)) hnext
    have hq : qTrace gf p w (dj :: rest)
        = (if 2 ^ p ≤ 2 * w ^^^ dj then 1 else 0)
          :: qTrace gf p (divStep gf p w dj) rest := rfl
    have hwf : wFold gf p w (dj :: rest) = wFold gf p (divStep gf p w dj) rest := rfl
    refine ⟨?_, by rw [hwf]; exact ihLt⟩
    rw [hq, hwf]
    have hqb : (if 2 ^ p ≤ 2 * w ^^^ dj then 1 else 0) % 2
        = (if 2 ^ p ≤ 2 * w ^^^ dj then 1 else 0) := by split <;> rfl
    have hof : ofBitsFrom qa
        ((if 2 ^ p ≤ 2 * w ^^^ dj then 1 else 0) :: qTrace gf p (divStep gf p w dj) rest)
        = ofBitsFrom (2 * qa + (if 2 ^ p ≤ 2 * w ^^^ dj then 1 else 0) % 2)
          (qTrace gf p (divStep gf p w dj) rest) := rfl
    rw [hof, hqb, ihEq]
    have hrhs : ofBitsFrom (clmul qa gf ^^^ w) (dj :: rest)
        = ofBitsFrom (2 * (clmul qa gf ^^^ w) + dj % 2) rest := rfl
    rw [hrhs, (by omega : dj % 2 = dj)]
    congr 1
    rw [clmul_two_mul_add qa _ gf (by split <;> omega), divStep]
    by_cases hc : 2 ^ p ≤ 2 * w ^^^ dj
    · rw [if_pos hc, if_pos hc, Nat.one_mul]
      rw [Nat.xor_assoc, Nat.xor_comm (2 * w ^^^ dj) gf, xor_xor_cancel,
        ← Nat.xor_assoc, two_mul_xor, two_mul_xor_bit _ dj hd]
    · rw [if_neg hc, if_neg hc, Nat.zero_mul, Nat.xor_zero,
        ← Nat.xor_assoc, two_mul_xor, two_mul_xor_bit _ dj hd]

theorem div_identity (g p : Nat) (hp : p ≠ 0) (d : List Nat) (h01 : ∀ x ∈ d, x < 2) :
    clmul (ofBits (qRun g p 0 d)) (2 ^ p + gtaps g p) ^^^ wRun g p 0 d = ofBits d
    ∧ wRun g p 0 d < 2 ^ p := by
  have hgf1 : 2 ^ p ≤ 2 ^ p + gtaps g p := Nat.le_add_right _ _
  have hgf2 : 2 ^ p + gtaps g p < 2 ^ (p + 1) := by
    have h1 := gtaps_lt g p hp
    have hpow : (2 : Nat) ^ (p + 1) = 2 * 2 ^ p := by rw [pow_succ]; ring
    omega
  have hpos : (0 : Nat) < 2 ^ p := Nat.pos_pow_of_pos _ (by norm_num)
  obtain ⟨hEq, hLt⟩ := div_invariant (2 ^ p + gtaps g p) p hgf1 hgf2 d h01 0 0 hpos
  rw [clmul_zero_left, Nat.zero_xor, qTrace_eq g p hp d h01 0 hpos] at hEq
  rw [wRun_eq_wFold g p hp d h01 0 hpos]
  refine ⟨?_, hLt⟩
  by_cases hd0 : d = []
  · subst hd0
    simp only [qRun, ofBits, ofBitsFrom, List.foldl_nil, clmul_zero_left, Nat.zero_xor]
    rfl
  · rw [if_neg hd0, Nat.zero_div, Nat.zero_mod] at hEq
    have h0 : ofBitsFrom 0 (0 :: qRun g p 0 d) = ofBitsFrom 0 (qRun g p 0 d) := rfl
    rw [h0] at hEq
    exact hEq

/-! Facts about the fuelled bit length and `gf2Mod`. -/

theorem bitLenAux_spec : ∀ fuel n : Nat, n ≤ fuel →
    n < 2 ^ bitLenAux fuel n
    ∧ (n ≠ 0 → 2 ^ (bitLenAux fuel n - 1) ≤ n ∧ 1 ≤ bitLenAux fuel n) := by
  intro fuel
  induction fuel with
  | zero =>
    intro n hn
    interval_cases n
    exact ⟨by norm_num, by omega⟩
  | succ fuel ih =>
    intro n hn
    by_cases h0 : n = 0
    · subst h0
      exact ⟨by simp [bitLenAux], by omega⟩
    · have hstep : bitLenAux (fuel + 1) n = bitLenAux fuel (n / 2) + 1 := by
        simp [bitLenAux, h0]
      have hd : n / 2 ≤ fuel := by omega
      obtain ⟨ih1, ih2⟩ := ih (n / 2) hd
      rw [hstep]
      constructor
      · have hps : (2 : Nat) ^ (bitLenAux fuel (n / 2) + 1)
            = 2 * 2 ^ bitLenAux fuel (n / 2) := by rw [pow_succ]; ring
        omega
      · intro _
        refine ⟨?_, by omega⟩
        by_cases h2 : n / 2 = 0
        · have hn1 : n = 1 := by omega
          rw [h2] at *
          have hb0 : bitLenAux fuel 0 = 0 := by cases fuel <;> simp [bitLenAux]
          rw [hb0]
          omega
        · obtain ⟨ih2a, ih2b⟩ := ih2 h2
          have hps : (2 : Nat) ^ (bitLenAux fuel (n / 2) + 1 - 1)
              = 2 * 2 ^ (bitLenAux fuel (n / 2) - 1) := by
            have h4 : bitLenAux fuel (n / 2) + 1 - 1 = (bitLenAux fuel (n / 2) - 1) + 1 := by
              omega
            rw [h4, pow_succ]; ring
          omega

theorem bitLenAux_of_bounds (g k : Nat) (h1 : 2 ^ k ≤ g) (h2 : g < 2 ^ (k + 1)) :
    bitLenAux g g = k + 1 := by
  have hg0 : g ≠ 0 := by
    have := Nat.pos_pow_of_pos k (show 0 < 2 by norm_num)
    omega
  obtain ⟨hA, hB⟩ := bitLenAux_spec g g (le_refl g)
  obtain ⟨hB1, hB2⟩ := hB hg0
  by_cases hle : bitLenAux g g ≤ k
  · have : (2 : Nat) ^ bitLenAux g g ≤ 2 ^ k := Nat.pow_le_pow_right (by norm_num) hle
    omega
  · by_cases hge : k + 2 ≤ bitLenAux g g
    · have : (2 : Nat) ^ (k + 1) ≤ 2 ^ (bitLenAux g g - 1) :=
        Nat.pow_le_pow_right (by norm_num) (by omega)
      omega
    · omega

theorem log2F_of_bounds (g k : Nat) (h1 : 2 ^ k ≤ g) (h2 : g < 2 ^ (k + 1)) :
    log2F g = k := by
  rw [log2F, bitLenAux_of_bounds g k h1 h2]
  omega

theorem gf2ModAux_succ (fuel a g : Nat) :
    gf2ModAux (fuel + 1) a g =
      if 2 ≤ g ∧ 2 ^ log2F g ≤ a then
        gf2ModAux fuel (a ^^^ (g <<< (log2F a - log2F g))) g
      else a := rfl

theorem gf2ModAux_stuck (fuel a g : Nat) (h : ¬(2 ≤ g ∧ 2 ^ log2F g ≤ a)) :
    gf2ModAux fuel a g = a := by
  cases fuel with
  | zero => rfl
  | succ fuel => rw [gf2ModAux_succ, if_neg h]

theorem geff_eq (g p : Nat) (hp : p ≠ 0) (hdeg1 : 2 ^ p ≤ g) (hdeg2 : g < 2 ^ (p + 1))
    (hodd : g % 2 = 1) : 2 ^ p + gtaps g p = g := by
  have hpow : (2 : Nat) ^ (p + 1) = 2 * 2 ^ p := by rw [pow_succ]; ring
  have hmod : g % 2 ^ p = g - 2 ^ p := by
    rw [Nat.mod_eq_sub_mod hdeg1, Nat.mod_eq_of_lt (by omega)]
  have hpe : (2 : Nat) ^ p % 2 = 0 := by
    have h4 : p = (p - 1) + 1 := by omega
    rw [h4, pow_succ]; omega
  rw [gtaps, hmod]
  omega

theorem gf2Mod_step (g n s : Nat) (hn : n ≠ 0) (hdeg1 : 2 ^ n ≤ g) (hdeg2 : g < 2 ^ (n + 1))
    (hodd : g % 2 = 1) (hs : s < 2 ^ n) :
    gf2Mod (2 * s) g = lfsrStepNum g n s := by
  have hlogg : log2F g = n := log2F_of_bounds g n hdeg1 hdeg2
  have hpow : (2 : Nat) ^ (n + 1) = 2 * 2 ^ n := by rw [pow_succ]; ring
  have hpown : (2 : Nat) ^ n = 2 * 2 ^ (n - 1) := by
    cases n with
    | zero => exact absurd rfl hn
    | succ k => simp [pow_succ, Nat.mul_comm]
  by_cases htop : 2 ^ (n - 1) ≤ s
  · -- top bit set: one cancellation happens
    have h2s1 : 2 ^ n ≤ 2 * s := by omega
    have h2s2 : 2 * s < 2 ^ (n + 1) := by omega
    have hloga : log2F (2 * s) = n := log2F_of_bounds (2 * s) n h2s1 h2s2
    have htop1 : s / 2 ^ (n - 1) % 2 = 1 := by
      have h1le : 1 ≤ s / 2 ^ (n - 1) :=
        (Nat.one_le_div_iff (Nat.pos_pow_of_pos _ (by norm_num))).2 htop
      have h2' : s / 2 ^ (n - 1) < 2 := by
        apply Nat.div_lt_of_lt_mul
        omega
      omega
    obtain ⟨k, hk⟩ : ∃ k, 2 * s = k + 1 := ⟨2 * s - 1, by omega⟩
    have hxlt : (2 * s) ^^^ g < 2 ^ n := xor_high_cancel h2s1 h2s2 hdeg1 hdeg2
    have hp1 : 1 ≤ 2 ^ (n - 1) := Nat.pos_pow_of_pos _ (by norm_num)
    have hred : gf2Mod (2 * s) g = (2 * s) ^^^ g := by
      rw [gf2Mod, hk, gf2ModAux_succ, ← hk, hloga, hlogg, Nat.sub_self,
        if_pos ⟨by omega, h2s1⟩]
      rw [Nat.shiftLeft_eq, pow_zero, Nat.mul_one]
      exact gf2ModAux_stuck k _ g (by
        intro hcond
        rw [hlogg] at hcond
        omega)
    rw [hred, lfsrStepNum, if_pos htop1]
    have hA : 2 * s % 2 ^ n = 2 * s - 2 ^ n := by
      rw [Nat.mod_eq_sub_mod h2s1, Nat.mod_eq_of_lt (by omega)]
    have hgt : gtaps g n = g - 2 ^ n := by
      have := geff_eq g n hn hdeg1 hdeg2 hodd
      omega
    rw [hA, hgt]
    have hsplit1 : 2 * s = 2 ^ n + (2 * s - 2 ^ n) := by omega
    have hsplit2 : g = 2 ^ n + (g - 2 ^ n) := by omega
    calc (2 * s) ^^^ g
        = (2 ^ n ^^^ (2 * s - 2 ^ n)) ^^^ (2 ^ n ^^^ (g - 2 ^ n)) := by
          rw [pow_xor_add (by omega : 2 * s - 2 ^ n < 2 ^ n),
            pow_xor_add (by omega : g - 2 ^ n < 2 ^ n), ← hsplit1, ← hsplit2]
      _ = (2 * s - 2 ^ n) ^^^ (g - 2 ^ n) := by
          rw [Nat.xor_comm (2 ^ n) (2 * s - 2 ^ n), Nat.xor_assoc, xor_xor_cancel]
  · -- top bit clear: no cancellation
    push_neg at htop
    have h2s : 2 * s < 2 ^ n := by omega
    have hstuck : gf2Mod (2 * s) g = 2 * s := by
      rw [gf2Mod]
      exact gf2ModAux_stuck _ _ _ (by
        intro hcond
        rw [hlogg] at hcond
        omega)
    have htop0 : s / 2 ^ (n - 1) % 2 = 0 := by
      rw [Nat.div_eq_of_lt htop]
    rw [hstuck, lfsrStepNum, if_neg (by rw [htop0]; omega), Nat.mod_eq_of_lt h2s,
      Nat.xor_zero]

/-! Quotient-bit timing facts for the corrected C5. -/

theorem stepW_top (g p w d : Nat) (hp : 2 ≤ p) :
    stepW g p w d / 2 ^ (p - 1) % 2 = lfsrStepNum g p w / 2 ^ (p - 1) % 2 := by
  have key : ∀ f : Nat, f < 2 →
      (lfsrStepNum g p w / 2 * 2 + f) / 2 ^ (p - 1) % 2
        = lfsrStepNum g p w / 2 ^ (p - 1) % 2 := by
    intro f hf
    have h3 : (2 : Nat) ^ (p - 1) = 2 * 2 ^ (p - 2) := by
      have h4 : p - 1 = (p - 2) + 1 := by omega
      rw [h4, pow_succ]; ring
    rw [h3, ← Nat.div_div_eq_div_mul, ← Nat.div_div_eq_div_mul,
      (by omega : (lfsrStepNum g p w / 2 * 2 + f) / 2 = lfsrStepNum g p w / 2)]
  rw [stepW]
  exact key _ (by split <;> omega)

theorem qRun_eq_preTops (g p : Nat) (hp : 2 ≤ p) : ∀ (d : List Nat) (w : Nat),
    qRun g p w d = preTops g p w d := by
  intro d
  induction d with
  | nil => intro w; rfl
  | cons dj rest ih =>
    intro w
    simp only [qRun, preTops, stepW_top g p w dj hp, ih (stepW g p w dj)]

theorem qRun_length (g p : Nat) : ∀ (d : List Nat) (w : Nat),
    (qRun g p w d).length = d.length - 1 := by
  intro d
  induction d with
  | nil => intro w; rfl
  | cons dj rest ih =>
    intro w
    simp only [qRun, List.length_append, ih (stepW g p w dj), List.length_cons]
    by_cases hrest : rest = []
    · subst hrest; simp
    · rw [if_neg hrest]
      have : rest.length ≠ 0 := by
        intro hc
        exact hrest (List.eq_nil_of_length_eq_zero hc)
      simp
      omega

/-! Claim theorems. -/

/-- Claim C2, counterexample: for the divisor `g = 2` (the polynomial `x`,
constant term 0) of degree `p = 1` and the dividend bits `[1, 1]`,
`BinPolyDiv._div` returns quotient `[1]` and remainder `[0]`, and
`quotient·g + remainder = x ≠ x + 1 = d` in GF(2), so the claimed identity
fails as stated for divisors with constant term 0. -/
theorem c2_counterexample :
    ¬(clmul (from_bit_array (BinPolyDiv._div 2 1 [1, 1]).1) 2
        ^^^ from_bit_array (BinPolyDiv._div 2 1 [1, 1]).2
      = from_bit_array [1, 1]) := by decide

/-- Claim C2 (amended: the divisor must have constant term 1, i.e. be odd —
the register hardware forces that tap): for every dividend bit sequence `d`
of length `L ≥ 1 `with entries 0/1 and every odd divisor `g` of degree
exactly `p ≥ 1`, the quotient and remainder of `BinPolyDiv._div` satisfy
`quotient(x)·g(x) + remainder(x) = d(x)` over GF(2) (naturals encode
polynomials bitwise; `^^^` is addition, `clmul` multiplication), and the
remainder value is below `2^p`, i.e. its degree is less than `p`. -/
theorem c2_div_gf2_identity (g p : Nat) (d : List Nat) (hp : 1 ≤ p)
    (hdeg1 : 2 ^ p ≤ g) (hdeg2 : g < 2 ^ (p + 1)) (hodd : g % 2 = 1)
    (h01 : ∀ x ∈ d, x < 2) (hL : d ≠ []) :
    clmul (from_bit_array (BinPolyDiv._div g p d).1) g
        ^^^ from_bit_array (BinPolyDiv._div g p d).2
      = from_bit_array d
    ∧ from_bit_array (BinPolyDiv._div g p d).2 < 2 ^ p := by
  have hp0 : p ≠ 0 := by omega
  have hpos : (0 : Nat) < 2 ^ p := Nat.pos_pow_of_pos _ (by norm_num)
  obtain ⟨hEq, hLt⟩ := div_identity g p hp0 d h01
  rw [geff_eq g p hp0 hdeg1 hdeg2 hodd] at hEq
  rw [div_eq_runs g p hp0 d]
  have hrem : from_bit_array (to_bit_array (wRun g p 0 d) p) = wRun g p 0 d := by
    rw [from_bit_array_eq, ofBits_to_bit_array _ _ hp0,
      Nat.mod_eq_of_lt (wRun_lt g p hp0 d 0 hpos)]
  constructor
  · show clmul (from_bit_array (qRun g p 0 d)) g
        ^^^ from_bit_array (to_bit_array (wRun g p 0 d) p) = from_bit_array d
    rw [hrem, from_bit_array_eq (qRun g p 0 d), from_bit_array_eq d]
    exact hEq
  · show from_bit_array (to_bit_array (wRun g p 0 d) p) < 2 ^ p
    rw [hrem]
    exact wRun_lt g p hp0 d 0 hpos

/-- Claim C2 witness: the amended identity instantiated on Moon's example,
dividend `x^8+x^7+x^5+x+1` and divisor `x^5+x+1` (35), with every hypothesis
discharged on the concrete input. -/
theorem c2_witness :
    clmul (from_bit_array (BinPolyDiv._div 35 5 [1, 1, 0, 1, 0, 0, 0, 1, 1]).1) 35
        ^^^ from_bit_array (BinPolyDiv._div 35 5 [1, 1, 0, 1, 0, 0, 0, 1, 1]).2
      = from_bit_array [1, 1, 0, 1, 0, 0, 0, 1, 1]
    ∧ from_bit_array (BinPolyDiv._div 35 5 [1, 1, 0, 1, 0, 0, 0, 1, 1]).2 < 2 ^ 5 :=
  c2_div_gf2_identity 35 5 [1, 1, 0, 1, 0, 0, 0, 1, 1] (by norm_num) (by norm_num)
    (by norm_num) (by norm_num) (by decide) (by decide)

/-- Claim C3, counterexample: for the monic polynomial `g = x^2 + x` (6),
whose constant term is 0, stepping from state `s = 2` yields state 3, while
`x·s(x) mod g(x)` is `x` (2): the hardware's forced constant-term tap makes
the claim false for monic polynomials with constant term 0. -/
theorem c3_counterexample : (BinLFSR.step 6 2 2).2 ≠ gf2Mod (2 * 2) 6 := by decide

/-- Claim C3 (amended: the connection polynomial must also have constant
term 1): for every monic `g` of degree `n ≥ 1` with odd encoding and every
state `s < 2^n`, one `BinLFSR.step` replaces the state with the GF(2)
remainder of `x·s(x)` modulo `g(x)` and returns the new state's most
significant bit. -/
theorem c3_step_is_mod (g n s : Nat) (hn : 1 ≤ n) (hmonic : 2 ^ n ≤ g)
    (hdeg : g < 2 ^ (n + 1)) (hconst : g % 2 = 1) (hs : s < 2 ^ n) :
    (BinLFSR.step g n s).2 = gf2Mod (2 * s) g
    ∧ (BinLFSR.step g n s).1 = (BinLFSR.step g n s).2 / 2 ^ (n - 1) % 2 := by
  rw [step_eq g n s (by omega)]
  exact ⟨(gf2Mod_step g n s (by omega) hmonic hdeg hconst hs).symm, rfl⟩

/-- Claim C3 witness: the amended statement instantiated at `g = x^2+x+1`
(7), `n = 2`, `s = 2`. -/
theorem c3_witness :
    (BinLFSR.step 7 2 2).2 = gf2Mod (2 * 2) 7
    ∧ (BinLFSR.step 7 2 2).1 = (BinLFSR.step 7 2 2).2 / 2 ^ (2 - 1) % 2 :=
  c3_step_is_mod 7 2 2 (by norm_num) (by norm_num) (by norm_num) (by norm_num) (by norm_num)

/-- Claim C4, counterexample: dividing Moon's example dividend by `x^5+x+1`
(35), the remainder returned by `BinPolyDiv._div` decodes to 20, but the
LFSR register after the final clocking holds 11: the remainder is *not* the
register contents after the last clock. -/
theorem c4_counterexample :
    from_bit_array (BinPolyDiv._div 35 5 [1, 1, 0, 1, 0, 0, 0, 1, 1]).2
      ≠ BinPolyDiv.lfsrAfter 35 5 [1, 1, 0, 1, 0, 0, 0, 1, 1] := by decide

/-- Claim C4 (amended): the remainder returned by `BinPolyDiv._div` is the
`p`-bit register value installed by the *final feedback injection*, i.e. the
fold `wRun` of the injection recurrence over all `L` input bits; the LFSR is
then clocked once more, leaving `lfsrStepNum` of that value in the register,
and that post-clock state is discarded. -/
theorem c4_remainder_pre_final_clock (g p : Nat) (d : List Nat) (hp : 1 ≤ p)
    (hL : d ≠ []) :
    from_bit_array (BinPolyDiv._div g p d).2 = wRun g p 0 d
    ∧ BinPolyDiv.lfsrAfter g p d = lfsrStepNum g p (wRun g p 0 d) :=
  ⟨remainder_eq_wRun g p (by omega) d, lfsrAfter_eq g p (by omega) d⟩

/-- Claim C4 witness: the amended statement instantiated at `g = 3`, `p = 2`,
dividend `[1, 0, 1]`. -/
theorem c4_witness :
    from_bit_array (BinPolyDiv._div 3 2 [1, 0, 1]).2 = wRun 3 2 0 [1, 0, 1]
    ∧ BinPolyDiv.lfsrAfter 3 2 [1, 0, 1] = lfsrStepNum 3 2 (wRun 3 2 0 [1, 0, 1]) :=
  c4_remainder_pre_final_clock 3 2 [1, 0, 1] (by norm_num) (by decide)

/-- Claim C5, counterexample: with a degree-1 divisor (`g = x+1`, `p = 1`)
and dividend `[1, 1]`, the emitted quotient bit is 1 — the injected feedback
value — while the register's most significant bit before that iteration's
injection is 0, so the claim fails for `p = 1` (the injection target *is*
the only, hence most significant, register position). -/
theorem c5_counterexample :
    (BinPolyDiv._div 3 1 [1, 1]).1 ≠ preTops 3 1 0 [1, 1] := by decide

/-- Claim C5 (amended: restricted to divisor degree `p ≥ 2`): for every
dividend of length `L ≥ 1`, `BinPolyDiv._div` emits exactly `L - 1` quotient
bits, in order, and each emitted bit equals the register's most significant
bit before that iteration's feedback injection. -/
theorem c5_quotient_bits (g p : Nat) (d : List Nat) (hp : 2 ≤ p) (hL : d ≠ []) :
    (BinPolyDiv._div g p d).1 = preTops g p 0 d
    ∧ (BinPolyDiv._div g p d).1.length = d.length - 1 := by
  rw [div_eq_runs g p (by omega) d]
  constructor
  · show qRun g p 0 d = preTops g p 0 d
    exact qRun_eq_preTops g p hp d 0
  · show (qRun g p 0 d).length = d.length - 1
    exact qRun_length g p d 0

/-- Claim C5 witness: the amended statement instantiated at `g = 35`,
`p = 5`, dividend `[1, 0, 1, 1]`. -/
theorem c5_witness :
    (BinPolyDiv._div 35 5 [1, 0, 1, 1]).1 = preTops 35 5 0 [1, 0, 1, 1]
    ∧ (BinPolyDiv._div 35 5 [1, 0, 1, 1]).1.length = [1, 0, 1, 1].length - 1 :=
  c5_quotient_bits 35 5 [1, 0, 1, 1] (by norm_num) (by decide)

/-- Claim C7, counterexample: the list `[2]` has a non-zero entry, so under
the claim it would decode to 1, but `from_bit_array` takes each entry modulo
2 and decodes it to 0: "any non-zero entry is treated as bit 1" is false for
even non-zero entries. -/
theorem c7_counterexample : from_bit_array [2] ≠ 1 ∧ from_bit_array [2] = 0 := by decide

/-- Claim C7 (amended: each entry contributes its value modulo 2 — odd
entries count as 1, even entries as 0): `from_bit_array` is standard
MSB-first binary decoding of the entries taken modulo 2, both as the Horner
fold `ofBits` and as the positional sum of `entry % 2 · 2^(weight)`. -/
theorem c7_from_bit_array_mod_two (arr : List Nat) :
    from_bit_array arr = ofBits arr
    ∧ from_bit_array arr
      = ∑ i ∈ Finset.range arr.length, arr.getD i 0 % 2 * 2 ^ (arr.length - 1 - i) :=
  ⟨from_bit_array_eq arr, by rw [from_bit_array_eq, ofBits_sum]⟩

/-- Claim C10: for every connection polynomial `g` of degree `n ≥ 1` and
every non-negative state `s`, including values of `n` bits or more installed
via `setstate`, `BinLFSR.step` stores back a state strictly below `2^n` and
returns an output bit that is 0 or 1. -/
theorem c10_step_invariant (g n s : Nat) (hn : 1 ≤ n) :
    (BinLFSR.step g n s).2 < 2 ^ n
    ∧ ((BinLFSR.step g n s).1 = 0 ∨ (BinLFSR.step g n s).1 = 1) := by
  rw [step_eq g n s (by omega)]
  exact ⟨lfsrStepNum_lt g n s (by omega), by omega⟩

/-- Claim C10 witness: instantiated at `g = 6`, `n = 2` and the wide state
`s = 21`, which exceeds `2^n`. -/
theorem c10_witness :
    (BinLFSR.step 6 2 21).2 < 2 ^ 2
    ∧ ((BinLFSR.step 6 2 21).1 = 0 ∨ (BinLFSR.step 6 2 21).1 = 1) :=
  c10_step_invariant 6 2 21 (by norm_num)

/-! List and bit-sequence lemmas used for the CRC codec proofs. -/

theorem getD_append (a b : List Nat) (j : Nat) :
    (a ++ b).getD j 0 = if j < a.length then a.getD j 0 else b.getD (j - a.length) 0 := by
  by_cases h : j < a.length
  · rw [if_pos h, List.getD_eq_getElem?_getD, List.getElem?_append_left h,
      ← List.getD_eq_getElem?_getD]
  · rw [if_neg h, List.getD_eq_getElem?_getD, List.getElem?_append_right (by omega),
      ← List.getD_eq_getElem?_getD]

theorem write_fold_length (r : List Nat) (off : Nat) : ∀ (m : Nat) (arr : List Nat),
    ((List.range m).foldl (fun c i => c.set (off + i) (r.getD i 0)) arr).length
      = arr.length := by
  intro m
  induction m with
  | zero => intro arr; rfl
  | succ m ih =>
    intro arr
    rw [List.range_succ, List.foldl_append]
    simp only [List.foldl_cons, List.foldl_nil]
    rw [List.length_set, ih]

theorem write_fold_getD (r : List Nat) (off : Nat) : ∀ (m : Nat) (arr : List Nat) (j : Nat),
    ((List.range m).foldl (fun c i => c.set (off + i) (r.getD i 0)) arr).getD j 0
      = if off ≤ j ∧ j - off < m ∧ j < arr.length then r.getD (j - off) 0
        else arr.getD j 0 := by
  intro m
  induction m with
  | zero =>
    intro arr j
    rw [if_neg (by omega)]
    rfl
  | succ m ih =>
    intro arr j
    rw [List.range_succ, List.foldl_append]
    simp only [List.foldl_cons, List.foldl_nil]
    rw [getD_set, write_fold_length, ih]
    by_cases hc : off ≤ j ∧ j - off < m + 1 ∧ j < arr.length
    · obtain ⟨hc1, hc2, hc3⟩ := hc
      by_cases hj : j - off = m
      · rw [if_pos ⟨by omega, by omega⟩, if_pos ⟨hc1, by omega, hc3⟩, hj]
      · rw [if_neg (by omega), if_pos ⟨hc1, by omega, hc3⟩, if_pos ⟨hc1, by omega, hc3⟩]
    · rw [if_neg (by omega), if_neg (by omega), if_neg hc]

theorem flatten_const_length (L : Nat) : ∀ (bs : List (List Nat)),
    (∀ b ∈ bs, b.length = L) → bs.flatten.length = bs.length * L := by
  intro bs
  induction bs with
  | nil => intro _; simp
  | cons b bs ih =>
    intro h
    rw [List.flatten_cons, List.length_append, ih (fun x hx => h x (List.mem_cons_of_mem b hx)),
      h b (List.mem_cons_self b bs), List.length_cons]
    ring

theorem flatten_slice (L : Nat) : ∀ (bs : List (List Nat)),
    (∀ b ∈ bs, b.length = L) → ∀ i, i < bs.length → ∀ (tail : List Nat),
    ((bs.flatten ++ tail).drop (i * L)).take L = bs.getD i [] := by
  intro bs
  induction bs with
  | nil => intro _ i hi tail; simp at hi
  | cons b bs ih =>
    intro h i hi tail
    cases i with
    | zero =>
      rw [List.flatten_cons, List.append_assoc, Nat.zero_mul, List.drop_zero,
        List.getD_cons_zero, (h b (List.mem_cons_self b bs)).symm, List.take_left]
    | succ i =>
      have hbl : (i + 1) * L = b.length + i * L := by
        rw [h b (List.mem_cons_self b bs)]; ring
      rw [List.flatten_cons, List.append_assoc, hbl, List.drop_append,
        List.getD_cons_succ]
      exact ih (fun x hx => h x (List.mem_cons_of_mem b hx)) i (by simpa using hi) tail

theorem ofBits_append (l1 l2 : List Nat) :
    ofBits (l1 ++ l2) = ofBits l1 * 2 ^ l2.length + ofBits l2 := by
  have h : ofBits (l1 ++ l2) = ofBitsFrom (ofBits l1) l2 := by
    simp only [ofBits, ofBitsFrom]
    rw [List.foldl_append]
  rw [h, ofBitsFrom_eq]

theorem ofBits_replicate_zero : ∀ k : Nat, ofBits (List.replicate k 0) = 0 := by
  intro k
  induction k with
  | zero => rfl
  | succ k ih =>
    rw [List.replicate_succ, ofBits_cons, ih]
    norm_num

theorem map_getD_range (m : List Nat) :
    (List.range m.length).map (fun i => m.getD i 0) = m := by
  apply list_ext_getD
  · simp
  · intro i hi
    simp only [List.length_map, List.length_range] at hi
    rw [List.getD_eq_getElem?_getD, List.getElem?_map, List.getElem?_range hi]
    rfl

theorem crc_len_eq_bitLen (g : Nat) (hg : g ≠ 0) : CRC.crc_len g = bitLenAux g g := by
  have hb : bitLenAux g g ≠ 0 := by
    obtain ⟨_, hB⟩ := bitLenAux_spec g g (le_refl g)
    have h2 := (hB hg).2
    omega
  rw [CRC.crc_len, to_bit_array]
  simp [hb]

theorem crc_len_ge_two (g : Nat) (hg : 2 ≤ g) : 2 ≤ CRC.crc_len g := by
  rw [crc_len_eq_bitLen g (by omega)]
  obtain ⟨hA, _⟩ := bitLenAux_spec g g (le_refl g)
  by_contra h
  push_neg at h
  have h2 : (2 : Nat) ^ bitLenAux g g ≤ 2 ^ 1 :=
    Nat.pow_le_pow_right (by norm_num) (by omega)
  norm_num at h2
  omega

theorem payloadBits_length (n : Nat) (m : List Nat) :
    (payloadBits n m).length = n * 8 := by
  rw [payloadBits, flatten_const_length 8]
  · simp
  · intro b hb
    rw [List.mem_map] at hb
    obtain ⟨i, _, rfl⟩ := hb
    simp [ITEM_SIZE]

theorem payloadBits_entries (n : Nat) (m : List Nat) :
    ∀ x ∈ payloadBits n m, x < 2 := by
  intro x hx
  rw [payloadBits, List.mem_flatten] at hx
  obtain ⟨b, hb, hxb⟩ := hx
  rw [List.mem_map] at hb
  obtain ⟨i, _, rfl⟩ := hb
  rw [List.mem_map] at hxb
  obtain ⟨j, _, rfl⟩ := hxb
  omega

theorem payloadBits_blocks (n : Nat) (m : List Nat) :
    payloadBits n m = ((List.range n).map fun i => to_bit_array (m.getD i 0) 8).flatten := by
  rw [payloadBits]
  congr 1

theorem encode_bytes_structure (g n : Nat) (m : List Nat) (size : Nat) (hg : 2 ≤ g) :
    CRC.encode_bytes g n m size
      = payloadBits n m
        ++ to_bit_array
            (wRun g (CRC.crc_len g - 1) 0
              (payloadBits n m ++ List.replicate (CRC.crc_len g - 1) 0))
            (CRC.crc_len g - 1) := by
  have hk2 := crc_len_ge_two g hg
  have hp : CRC.crc_len g - 1 ≠ 0 := by omega
  have hpos : (0 : Nat) < 2 ^ (CRC.crc_len g - 1) := Nat.pos_pow_of_pos _ (by norm_num)
  rw [CRC.encode_bytes, remainder_eq_wRun g _ hp,
    show ((List.range n).map fun i =>
        (List.range ITEM_SIZE).map fun j =>
          m.getD i 0 / 2 ^ (ITEM_SIZE - 1 - j) % 2).flatten = payloadBits n m from rfl]
  have hlen1 : (payloadBits n m ++ List.replicate (CRC.crc_len g - 1) 0).length
      = n * 8 + (CRC.crc_len g - 1) := by
    rw [List.length_append, payloadBits_length, List.length_replicate]
  have hcnt : (payloadBits n m ++ List.replicate (CRC.crc_len g - 1) 0).length
      - n * ITEM_SIZE = CRC.crc_len g - 1 := by
    rw [hlen1]
    simp [ITEM_SIZE]
  rw [hcnt]
  have hrlen : (to_bit_array
      (wRun g (CRC.crc_len g - 1) 0
        (payloadBits n m ++ List.replicate (CRC.crc_len g - 1) 0))
      (CRC.crc_len g - 1)).length = CRC.crc_len g - 1 := to_bit_array_length _ _ hp
  apply list_ext_getD
  · rw [write_fold_length, hlen1, List.length_append, payloadBits_length, hrlen]
  · intro j hj
    rw [write_fold_length, hlen1] at hj
    rw [write_fold_getD, getD_append, getD_append, payloadBits_length, hlen1]
    by_cases hjp : j < n * 8
    · rw [if_neg (by simp only [ITEM_SIZE]; omega), if_pos hjp, if_pos hjp]
    · rw [if_pos ⟨by simp only [ITEM_SIZE]; omega, by simp only [ITEM_SIZE]; omega, by omega⟩,
        if_neg hjp]
      simp only [ITEM_SIZE]

/-- Claim C1: for every payload `m` of exactly `n` items, each in `[0, 255]`,
and every generator `g ≥ 2`, encoding with the CRC codec and decoding the
unmodified codeword returns the payload itself together with syndrome 0. -/
theorem c1_roundtrip (g n : Nat) (m : List Nat) (hg : 2 ≤ g) (hlen : m.length = n)
    (hm : ∀ x ∈ m, x < 256) :
    CRC.decode g n (CRC.encode_bytes g n m 8) = (m, 0) := by
  subst hlen
  have hk2 := crc_len_ge_two g hg
  have hp : CRC.crc_len g - 1 ≠ 0 := by omega
  have hpos : (0 : Nat) < 2 ^ (CRC.crc_len g - 1) := Nat.pos_pow_of_pos _ (by norm_num)
  have hgf1 : 2 ^ (CRC.crc_len g - 1) ≤ 2 ^ (CRC.crc_len g - 1) + gtaps g (CRC.crc_len g - 1) :=
    Nat.le_add_right _ _
  have hgf2 : 2 ^ (CRC.crc_len g - 1) + gtaps g (CRC.crc_len g - 1)
      < 2 ^ (CRC.crc_len g - 1 + 1) := by
    have h1 := gtaps_lt g (CRC.crc_len g - 1) hp
    have hpow : (2 : Nat) ^ (CRC.crc_len g - 1 + 1) = 2 * 2 ^ (CRC.crc_len g - 1) := by
      rw [pow_succ]; ring
    omega
  have h01z : ∀ x ∈ payloadBits m.length m
      ++ List.replicate (CRC.crc_len g - 1) 0, x < 2 := by
    intro x hx
    rcases List.mem_append.mp hx with hx | hx
    · exact payloadBits_entries _ _ x hx
    · rw [List.eq_of_mem_replicate hx]; omega
  obtain ⟨hId1, hR_lt⟩ := div_identity g (CRC.crc_len g - 1) hp
    (payloadBits m.length m ++ List.replicate (CRC.crc_len g - 1) 0) h01z
  have hrbits_val : ofBits (to_bit_array
      (wRun g (CRC.crc_len g - 1) 0
        (payloadBits m.length m ++ List.replicate (CRC.crc_len g - 1) 0))
      (CRC.crc_len g - 1))
      = wRun g (CRC.crc_len g - 1) 0
        (payloadBits m.length m ++ List.replicate (CRC.crc_len g - 1) 0) := by
    rw [ofBits_to_bit_array _ _ hp, Nat.mod_eq_of_lt hR_lt]
  have h01cw : ∀ x ∈ payloadBits m.length m
      ++ to_bit_array
        (wRun g (CRC.crc_len g - 1) 0
          (payloadBits m.length m ++ List.replicate (CRC.crc_len g - 1) 0))
        (CRC.crc_len g - 1), x < 2 := by
    intro x hx
    rcases List.mem_append.mp hx with hx | hx
    · exact payloadBits_entries _ _ x hx
    · exact to_bit_array_mem_lt _ _ x hx
  obtain ⟨hId2, hS_lt⟩ := div_identity g (CRC.crc_len g - 1) hp
    (payloadBits m.length m
      ++ to_bit_array
        (wRun g (CRC.crc_len g - 1) 0
          (payloadBits m.length m ++ List.replicate (CRC.crc_len g - 1) 0))
        (CRC.crc_len g - 1)) h01cw
  have hofzeros : ofBits (payloadBits m.length m ++ List.replicate (CRC.crc_len g - 1) 0)
      = ofBits (payloadBits m.length m) * 2 ^ (CRC.crc_len g - 1) := by
    rw [ofBits_append, List.length_replicate, ofBits_replicate_zero, Nat.add_zero]
  have hofcw : ofBits (payloadBits m.length m
      ++ to_bit_array
        (wRun g (CRC.crc_len g - 1) 0
          (payloadBits m.length m ++ List.replicate (CRC.crc_len g - 1) 0))
        (CRC.crc_len g - 1))
      = ofBits (payloadBits m.length m) * 2 ^ (CRC.crc_len g - 1)
        ^^^ wRun g (CRC.crc_len g - 1) 0
          (payloadBits m.length m ++ List.replicate (CRC.crc_len g - 1) 0) := by
    rw [ofBits_append, to_bit_array_length _ _ hp, hrbits_val, mul_pow_xor_add _ _ _ hR_lt]
  rw [hofzeros] at hId1
  rw [hofcw] at hId2
  rw [← hId1, Nat.xor_assoc, Nat.xor_self, Nat.xor_zero] at hId2
  -- hId2 : clmul Q2 gf ^^^ S = clmul Q1 gf
  have hsyn : wRun g (CRC.crc_len g - 1) 0
      (payloadBits m.length m
        ++ to_bit_array
          (wRun g (CRC.crc_len g - 1) 0
            (payloadBits m.length m ++ List.replicate (CRC.crc_len g - 1) 0))
          (CRC.crc_len g - 1)) = 0 := by
    have hSval := xor_xor_cancel
      (clmul (ofBits (qRun g (CRC.crc_len g - 1) 0
        (payloadBits m.length m
          ++ to_bit_array
            (wRun g (CRC.crc_len g - 1) 0
              (payloadBits m.length m ++ List.replicate (CRC.crc_len g - 1) 0))
            (CRC.crc_len g - 1))))
        (2 ^ (CRC.crc_len g - 1) + gtaps g (CRC.crc_len g - 1)))
      (wRun g (CRC.crc_len g - 1) 0
        (payloadBits m.length m
          ++ to_bit_array
            (wRun g (CRC.crc_len g - 1) 0
              (payloadBits m.length m ++ List.replicate (CRC.crc_len g - 1) 0))
            (CRC.crc_len g - 1)))
    rw [hId2, ← clmul_xor_left] at hSval
    by_cases hQ : ofBits (qRun g (CRC.crc_len g - 1) 0
        (payloadBits m.length m
          ++ to_bit_array
            (wRun g (CRC.crc_len g - 1) 0
              (payloadBits m.length m ++ List.replicate (CRC.crc_len g - 1) 0))
            (CRC.crc_len g - 1)))
        ^^^ ofBits (qRun g (CRC.crc_len g - 1) 0
          (payloadBits m.length m ++ List.replicate (CRC.crc_len g - 1) 0)) = 0
    · rw [hQ, clmul_zero_left] at hSval
      exact hSval.symm
    · exfalso
      have hge := clmul_ge (2 ^ (CRC.crc_len g - 1) + gtaps g (CRC.crc_len g - 1))
        (CRC.crc_len g - 1) hgf1 hgf2 _ hQ
      rw [hSval] at hge
      omega
  rw [encode_bytes_structure g m.length m 8 hg, CRC.decode,
    remainder_eq_wRun g _ hp, hsyn]
  apply Prod.ext
  · show (List.range m.length).map _ = m
    have hblocklen : ∀ b ∈ (List.range m.length).map fun i => to_bit_array (m.getD i 0) 8,
        b.length = 8 := by
      intro b hb
      rw [List.mem_map] at hb
      obtain ⟨k, _, rfl⟩ := hb
      exact to_bit_array_length _ _ (by norm_num)
    have hstep : ∀ i ∈ List.range m.length,
        from_bit_array
          (((payloadBits m.length m
            ++ to_bit_array
              (wRun g (CRC.crc_len g - 1) 0
                (payloadBits m.length m ++ List.replicate (CRC.crc_len g - 1) 0))
              (CRC.crc_len g - 1)).drop (i * ITEM_SIZE)).take ITEM_SIZE)
          = m.getD i 0 := by
      intro i hi
      have hi' : i < m.length := List.mem_range.mp hi
      have hslice := flatten_slice 8
        ((List.range m.length).map fun i => to_bit_array (m.getD i 0) 8) hblocklen i
        (by simpa using hi')
        (to_bit_array
          (wRun g (CRC.crc_len g - 1) 0
            (((List.range m.length).map fun i => to_bit_array (m.getD i 0) 8).flatten
              ++ List.replicate (CRC.crc_len g - 1) 0))
          (CRC.crc_len g - 1))
      have hgetDi : ((List.range m.length).map fun k => to_bit_array (m.getD k 0) 8).getD i []
          = to_bit_array (m.getD i 0) 8 := by
        rw [List.getD_eq_getElem?_getD, List.getElem?_map, List.getElem?_range hi']
        rfl
      rw [payloadBits_blocks, show i * ITEM_SIZE = i * 8 from by simp only [ITEM_SIZE],
        show ITEM_SIZE = 8 from rfl, hslice, hgetDi, from_bit_array_eq,
        ofBits_to_bit_array _ _ (by norm_num)]
      have hmem : m.getD i 0 ∈ m := by
        rw [List.getD_eq_getElem m 0 hi']
        exact List.getElem_mem hi'
      have h256 : (2 : Nat) ^ 8 = 256 := by norm_num
      rw [h256]
      exact Nat.mod_eq_of_lt (hm _ hmem)
    rw [List.map_congr_left hstep, map_getD_range]
  · rfl

/-- Claim C1 witness: the round trip instantiated with the generator
`g = 7`, a one-item payload `[171]`. -/
theorem c1_witness : CRC.decode 7 1 (CRC.encode_bytes 7 1 [171] 8) = ([171], 0) :=
  c1_roundtrip 7 1 [171] (by norm_num) (by decide) (by decide)

/-- Claim C6: the `size` argument of `CRC.encode_bytes` is ignored — the
flattening loop ranges over the module constant `ITEM_SIZE = 8` — so with
`g = 3` (`crc_len = 2`), `n = 1`, `m = [1]` and `size = 4` the codeword has
`1·8 + crc_len - 1 = 9` bits, not the claimed `n·size + crc_len - 1 = 5`. -/
theorem c6_encode_ignores_size :
    (CRC.encode_bytes 3 1 [1] 4).length = 1 * 8 + (CRC.crc_len 3 - 1)
    ∧ (CRC.encode_bytes 3 1 [1] 4).length ≠ 1 * 4 + (CRC.crc_len 3 - 1) := by decide

/-- Claim C9: the decoded payload of `CRC.decode` depends only on the first
`n·8` received bits — any two received sequences agreeing there decode to
the same payload — and equals the literal MSB-first decoding of the `n`
eight-bit groups of that prefix; the syndrome and trailing check bits never
alter it. -/
theorem c9_decode_payload_literal (g n : Nat) (r1 r2 : List Nat)
    (h : r1.take (n * 8) = r2.take (n * 8)) :
    (CRC.decode g n r1).1 = (CRC.decode g n r2).1
    ∧ (CRC.decode g n r1).1
      = (List.range n).map fun i => from_bit_array (((r1.take (n * 8)).drop (i * 8)).take 8) := by
  have key : ∀ r : List Nat, (CRC.decode g n r).1
      = (List.range n).map fun i => from_bit_array (((r.take (n * 8)).drop (i * 8)).take 8) := by
    intro r
    simp only [CRC.decode, ITEM_SIZE]
    apply List.map_congr_left
    intro i hi
    have hi' : i < n := List.mem_range.mp hi
    rw [List.drop_take, List.take_take, min_eq_left (by omega : 8 ≤ n * 8 - i * 8)]
  refine ⟨?_, key r1⟩
  rw [key r1, key r2, h]

/-- Claim C9 witness: two received sequences of different length and content
agreeing on their first 8 bits decode to the same single-item payload. -/
theorem c9_witness :
    (CRC.decode 5 1 [1, 0, 1, 0, 0, 1, 1, 1, 0, 1]).1
        = (CRC.decode 5 1 [1, 0, 1, 0, 0, 1, 1, 1, 1, 0, 1, 1]).1
    ∧ (CRC.decode 5 1 [1, 0, 1, 0, 0, 1, 1, 1, 0, 1]).1
      = (List.range 1).map fun i =>
          from_bit_array ((([1, 0, 1, 0, 0, 1, 1, 1, 0, 1].take (1 * 8)).drop (i * 8)).take 8) :=
  c9_decode_payload_literal 5 1 [1, 0, 1, 0, 0, 1, 1, 1, 0, 1]
    [1, 0, 1, 0, 0, 1, 1, 1, 1, 0, 1, 1] (by decide)

/-! Injectivity of the register update on the `n`-bit state space, and
periodicity of iterated stepping. -/

theorem lfsrStepNum_recover (g n : Nat) (hn : n ≠ 0) (s : Nat) (hs : s < 2 ^ n) :
    (if lfsrStepNum g n s % 2 = 1 then lfsrStepNum g n s ^^^ gtaps g n
      else lfsrStepNum g n s) / 2
      + lfsrStepNum g n s % 2 * 2 ^ (n - 1) = s := by
  have hpown : (2 : Nat) ^ n = 2 * 2 ^ (n - 1) := by
    cases n with
    | zero => exact absurd rfl hn
    | succ k => simp [pow_succ, Nat.mul_comm]
  have hgodd := gtaps_odd g n
  by_cases htop : s / 2 ^ (n - 1) % 2 = 1
  · have hwge : 2 ^ (n - 1) ≤ s := by
      by_contra hlt
      push_neg at hlt
      rw [Nat.div_eq_of_lt hlt] at htop
      simp at htop
    have hA : 2 * s % 2 ^ n = 2 * s - 2 ^ n := by
      rw [Nat.mod_eq_sub_mod (by omega), Nat.mod_eq_of_lt (by omega)]
    have hv : lfsrStepNum g n s = (2 * s - 2 ^ n) ^^^ gtaps g n := by
      rw [lfsrStepNum, if_pos htop, hA]
    have hvodd : lfsrStepNum g n s % 2 = 1 := by
      rw [hv, xor_mod_two, (by omega : (2 * s - 2 ^ n) % 2 = 0), hgodd]
      decide
    rw [if_pos hvodd, hvodd, hv, Nat.xor_assoc, Nat.xor_self, Nat.xor_zero]
    omega
  · have hwlt : s < 2 ^ (n - 1) := by
      by_contra hge
      push_neg at hge
      have h1le : 1 ≤ s / 2 ^ (n - 1) :=
        (Nat.one_le_div_iff (Nat.pos_pow_of_pos _ (by norm_num))).2 hge
      have h2 : s / 2 ^ (n - 1) < 2 := by
        apply Nat.div_lt_of_lt_mul
        omega
      omega
    have hv : lfsrStepNum g n s = 2 * s := by
      rw [lfsrStepNum, if_neg htop, Nat.mod_eq_of_lt (by omega), Nat.xor_zero]
    rw [hv, if_neg (by omega), (by omega : 2 * s % 2 = 0), Nat.zero_mul]
    omega

theorem lfsrStepNum_inj (g n : Nat) (hn : n ≠ 0) (a b : Nat) (ha : a < 2 ^ n)
    (hb : b < 2 ^ n) (h : lfsrStepNum g n a = lfsrStepNum g n b) : a = b := by
  have hra := lfsrStepNum_recover g n hn a ha
  have hrb := lfsrStepNum_recover g n hn b hb
  rw [h] at hra
  exact hra.symm.trans hrb

theorem lfsrFin_val (g n : Nat) (hn : n ≠ 0) (x : Fin (2 ^ n)) :
    (lfsrFin g n x).val = lfsrStepNum g n x.val := by
  rw [lfsrFin]
  exact Nat.mod_eq_of_lt (lfsrStepNum_lt g n x.val hn)

theorem lfsrFin_inj (g n : Nat) (hn : n ≠ 0) : Function.Injective (lfsrFin g n) := by
  intro a b h
  have hv : lfsrStepNum g n a.val = lfsrStepNum g n b.val := by
    rw [← lfsrFin_val g n hn a, ← lfsrFin_val g n hn b, h]
  exact Fin.ext (lfsrStepNum_inj g n hn a.val b.val a.isLt b.isLt hv)

theorem lfsrFin_iterate_val (g n : Nat) (hn : n ≠ 0) : ∀ (k : Nat) (x : Fin (2 ^ n)),
    ((lfsrFin g n)^[k] x).val = (lfsrStepNum g n)^[k] x.val := by
  intro k
  induction k with
  | zero => intro x; rfl
  | succ k ih =>
    intro x
    rw [Function.iterate_succ_apply', Function.iterate_succ_apply',
      lfsrFin_val g n hn, ih x]

/-- Claim C8: for every connection polynomial `g` of degree `n ≥ 1` and every
nonzero initial state `s < 2^n`, some positive number of `BinLFSR.step`
calls returns the register to `s`: the forced constant-term tap makes the
update a bijection of the `n`-bit state space, so every orbit is periodic. -/
theorem c8_periodicity (g n s : Nat) (hn : 1 ≤ n) (hs1 : 0 < s) (hs2 : s < 2 ^ n) :
    ∃ k, 1 ≤ k ∧ (BinLFSR.stepState g n)^[k] s = s := by
  have hn0 : n ≠ 0 := by omega
  have hstep : BinLFSR.stepState g n = lfsrStepNum g n := by
    funext x
    rw [BinLFSR.stepState, step_eq g n x hn0]
  rw [hstep]
  have key : ∀ a b : Nat, a < b →
      (lfsrFin g n)^[a] ⟨s, hs2⟩ = (lfsrFin g n)^[b] ⟨s, hs2⟩ →
      ∃ k, 1 ≤ k ∧ (lfsrStepNum g n)^[k] s = s := by
    intro a b hab hiter
    have hsplit : (lfsrFin g n)^[b] ⟨s, hs2⟩
        = (lfsrFin g n)^[a] ((lfsrFin g n)^[b - a] ⟨s, hs2⟩) := by
      rw [← Function.iterate_add_apply, (by omega : a + (b - a) = b)]
    rw [hsplit] at hiter
    have hfix := (Function.Injective.iterate (lfsrFin_inj g n hn0) a) hiter
    refine ⟨b - a, by omega, ?_⟩
    have hval := congrArg Fin.val hfix
    rw [lfsrFin_iterate_val g n hn0] at hval
    exact hval.symm
  obtain ⟨i, j, hne, heq⟩ := Fintype.exists_ne_map_eq_of_card_lt
    (fun k : Fin (2 ^ n + 1) => (lfsrFin g n)^[k.val] ⟨s, hs2⟩) (by simp)
  rcases Nat.lt_trichotomy i.val j.val with h | h | h
  · exact key i.val j.val h heq
  · exact absurd (Fin.ext h) hne
  · exact key j.val i.val h heq.symm

/-- Claim C8 witness: the generator `[1,0,1,1,1]` (23) of degree 4 seeded
with state 1, the reference scenario of the repository's demonstration. -/
theorem c8_witness : ∃ k, 1 ≤ k ∧ (BinLFSR.stepState 23 4)^[k] 1 = 1 :=
  c8_periodicity 23 4 1 (by norm_num) (by norm_num) (by norm_num)

